import Mathlib

/-!
# Order reconciliation and completion-tracking engine: a shallow embedding

This file embeds the order-merge, completion-tracking, unified-view and
dashboard-aggregation logic of `src/backend/api.py` in Lean and proves /
refutes the frozen behavioural claims about it.

Modelling conventions.

* Order records are Python dicts with string keys and (in the code paths
  covered here) string values.  We model a record as a structure with one
  `Option String` field per dict key the engine reads or writes; `none`
  means "key absent".  `d.get(k)` is the field itself, `k in d` is
  `Option.isSome`, Python truthiness of a retrieved value is
  "`some s` with `s ≠ ""`".
* Time is effectful in the source (`datetime.now()`, `datetime.utcnow()`);
  every function that consults the clock takes the current time as an
  explicit parameter.
* The completion log (a JSON object keyed by identifier) is modelled as a
  function `String → Option CompletionEntry`; dict assignment is pointwise
  function update.
* Persistence (`save_cache`, `save_order_completion_log`) and image
  downloading are out of scope: the embedded functions return the new
  in-memory state that the source would persist.
* `limit_orders` is the identity in the default configuration
  (`MAX_SYNC_ORDERS` unset), which is the configuration modelled here.
-/

/-! ## Python value model and flag normalization -/

/-- The ASCII whitespace characters Python's `str.strip()` removes. -/
def pySpace (c : Char) : Bool :=
  c = ' ' || c = '\t' || c = '\n' || c = '\r' || c = '\x0b' || c = '\x0c'

/-- Python `str.strip()` (for the ASCII whitespace the engine encounters). -/
def pyStrip (s : String) : String :=
  ⟨((s.data.dropWhile pySpace).reverse.dropWhile pySpace).reverse⟩

/-- ASCII lower-casing of one character. -/
def pyLowerChar (c : Char) : Char :=
  if 'A' ≤ c && c ≤ 'Z' then Char.ofNat (c.toNat + 32) else c

/-- Python `str.lower()` (ASCII fragment). -/
def pyLower (s : String) : String := ⟨s.data.map pyLowerChar⟩

/-- A Python runtime value, as far as `normalize_flag_value` discriminates:
`None`, a `bool`, an `int`/`float` (modelled as `ℚ`, only compared to 1),
a `str`, or any other object. -/
inductive PyVal where
  | vnone : PyVal
  | vbool (b : Bool) : PyVal
  | vnum (q : ℚ) : PyVal
  | vstr (s : String) : PyVal
  | vother : PyVal
deriving DecidableEq

/-- `normalize_flag_value` (api.py:3423-3433). -/
def normalize_flag_value : PyVal → Bool
  | .vnone => false
  | .vbool b => b
  | .vnum q => q == 1
  | .vstr s => pyLower (pyStrip s) ∈ (["true", "1", "yes", "y", "t"] : List String)
  | .vother => false

/-- Python truthiness of an optional string-valued dict entry:
missing keys and empty strings are falsy. -/
def truthy : Option String → Bool
  | none => false
  | some s => s ≠ ""

/-- Python `a or b` for two optional string dict lookups. -/
def pyOr (a b : Option String) : Option String :=
  if truthy a then a else b

/-- Lift an optional string dict value to a `PyVal`. -/
def pyOfOpt : Option String → PyVal
  | none => .vnone
  | some s => .vstr s

/-! ## Order records -/

/-- An order record: a flat string-keyed dict.  One `Option String` field per
key that the merge / tracker / view code reads or writes (`none` = key
absent).  `name` stands for the representative non-editable passthrough
column `Name`; `isManual` is the only boolean-valued key the engine writes
into these dicts. -/
structure Order where
  transaction : Option String := none     -- "transaction"
  transactionID : Option String := none   -- "Transaction ID"
  transactionCap : Option String := none  -- "Transaction"
  order_id : Option String := none        -- "order_id"
  orderIDCap : Option String := none      -- "Order ID"
  manualId : Option String := none        -- "__manualId"
  idLow : Option String := none           -- "id"
  idCap : Option String := none           -- "ID"
  produce : Option String := none         -- "Produce"
  kesildi : Option String := none         -- "Kesildi"
  ready : Option String := none           -- "Ready"
  hazir : Option String := none           -- "Hazır"
  shipped : Option String := none         -- "Shipped"
  gonderildi : Option String := none      -- "Gönderildi"
  note : Option String := none            -- "Note"
  importantnote : Option String := none   -- "importantnote"
  name : Option String := none            -- "Name"
  dataF : Option String := none           -- "Data"
  tarih : Option String := none           -- "tarih"
  tarihh : Option String := none          -- "tarihh"
  created_at : Option String := none      -- "created_at"
  sortKeyF : Option String := none        -- "_sortKey"
  isManual : Option Bool := none          -- "isManual"
deriving DecidableEq

/-- First truthy candidate of a Python candidate list (`get_order_identifier`'s
loop body: `if candidate: return str(candidate)`). -/
def firstTruthy : List (Option String) → Option String
  | [] => none
  | c :: rest => if truthy c then c else firstTruthy rest

/-- `get_order_identifier` (api.py:3093-3108). -/
def get_order_identifier (o : Order) (explicit : Option String := none) : Option String :=
  firstTruthy [explicit, o.transaction, o.transactionID, o.transactionCap,
    o.order_id, o.orderIDCap, o.manualId, o.idLow, o.idCap]

/-- `get_order_stage_flags` (api.py:3127-3131). -/
def get_order_stage_flags (o : Order) : Bool × Bool × Bool :=
  (normalize_flag_value (pyOfOpt (pyOr o.produce o.kesildi)),
   normalize_flag_value (pyOfOpt (pyOr o.ready o.hazir)),
   normalize_flag_value (pyOfOpt (pyOr o.shipped o.gonderildi)))

/-- `is_order_marked_complete` (api.py:3133-3135). -/
def is_order_marked_complete (o : Order) : Bool :=
  let (produce, ready, shipped) := get_order_stage_flags o
  produce && ready && shipped

/-! ## Completion log and tracker -/

/-- One value of the completion log dict
(`{is_complete, completed_at, history}`). -/
structure CompletionEntry where
  is_complete : Bool
  completed_at : Option String
  history : List String
deriving DecidableEq

/-- The completion log: canonical identifier → entry. -/
def Log : Type := String → Option CompletionEntry

/-- Dict assignment `log[identifier] = entry`. -/
def logSet (log : Log) (id : String) (e : CompletionEntry) : Log :=
  fun j => if j = id then some e else log j

/-- `history[-50:]` applied after the append when the list exceeds 50. -/
def trimHistory (h : List String) : List String :=
  if h.length > 50 then h.drop (h.length - 50) else h

/-- `update_order_completion_tracking` (api.py:3137-3164); `now` is the
timestamp string `datetime.now(timezone.utc).isoformat()` would produce. -/
def update_order_completion_tracking (now : String) (o : Order)
    (explicit : Option String) (log : Log) : Log :=
  match get_order_identifier o explicit with
  | none => log
  | some id =>
    let (produce, ready, shipped) := get_order_stage_flags o
    let is_complete_now := produce && ready && shipped
    let entry := log id
    let was_complete := (entry.map (·.is_complete)).getD false
    if is_complete_now && !was_complete then
      let history := trimHistory (((entry.map (·.history)).getD []) ++ [now])
      logSet log id ⟨true, some now, history⟩
    else if !is_complete_now && was_complete then
      -- `entry` exists here since `was_complete` is true; the source mutates
      -- it in place, clearing the flag and timestamp but keeping history.
      match entry with
      | some e => logSet log id ⟨false, none, e.history⟩
      | none => logSet log id ⟨false, none, []⟩
    else log

/-- `remove_order_completion_entry` (api.py:3166-3171). -/
def remove_order_completion_entry (identifier : Option String) (log : Log) : Log :=
  match identifier with
  | none => log
  | some id => fun j => if j = id then none else log j

/-! ## Editable-field preservation and merge identifiers -/

/-- The value `preserve_editable_fields` takes from the source order for one
(frontend, backend) pair: the backend key when present, else the frontend
key (api.py:1892-1898). -/
def preservedVal (backend frontend : Option String) : Option String :=
  match backend with
  | some v => some v
  | none => frontend

/-- `preserve_editable_fields` (api.py:1887-1902): per `EDITABLE_FIELD_GROUPS`
pair, copy the preserved source value onto the target under both names. -/
def preserve_editable_fields (target source : Order) : Order :=
  let t1 := match preservedVal source.kesildi source.produce with
    | some v => { target with produce := some v, kesildi := some v }
    | none => target
  let t2 := match preservedVal source.hazir source.ready with
    | some v => { t1 with ready := some v, hazir := some v }
    | none => t1
  let t3 := match preservedVal source.gonderildi source.shipped with
    | some v => { t2 with shipped := some v, gonderildi := some v }
    | none => t2
  match preservedVal source.importantnote source.note with
  | some v => { t3 with note := some v, importantnote := some v }
  | none => t3

/-- The merge identifier of a freshly fetched row:
`order.get('Transaction ID') or order.get('transaction')`, `none` when the
chain is falsy (api.py:1919, 1936, 1980). -/
def fetchedKey (o : Order) : Option String :=
  let t := pyOr o.transactionID o.transaction
  if truthy t then t else none

/-- The merge identifier of a cached row:
`order.get('transaction') or order.get('Transaction ID')`, `none` when the
chain is falsy (api.py:1926, 1945, 1965, 2178). -/
def cachedKey (o : Order) : Option String :=
  let t := pyOr o.transaction o.transactionID
  if truthy t then t else none

/-- Lookup in the first-occurrence dict the mergers build from the cache
(`existing_orders_map`): the first cached row whose truthy cached key is
`t` (api.py:1924-1928, 2176-2180). -/
def lookupByCachedKey (cache : List Order) (t : String) : Option Order :=
  cache.find? (fun o => cachedKey o == some t)

/-! ## Full-replace merge (`update_cache`, api.py:1905-1955) -/

/-- First pass of the full replace: iterate fetched rows in source order,
keep the first occurrence of each truthy identifier, drop identifier-less
rows, and apply the preserver against the matching cached row. -/
def fullReplacePass (cache : List Order) : List Order → List String → List Order
  | [], _ => []
  | o :: rest, seen =>
    match fetchedKey o with
    | some t =>
      if seen.contains t then fullReplacePass cache rest seen
      else
        (match lookupByCachedKey cache t with
          | some m => preserve_editable_fields o m
          | none => o) :: fullReplacePass cache rest (t :: seen)
    | none => fullReplacePass cache rest seen

/-- The identifiers kept by the first pass (its final `cached_transactions`
set): every truthy fetched key of the batch. -/
def batchKeys (batch : List Order) : List String := batch.filterMap fetchedKey

/-- `update_cache` (api.py:1905-1955) as a function of the fetch result and
the previous cache: first pass over the fetched rows, then append cached
orphans whose identifier the fetch did not mention.  A `none` fetch leaves
the cache untouched. -/
def update_cache (fetched : Option (List Order)) (cache : List Order) : List Order :=
  match fetched with
  | none => cache
  | some batch =>
    fullReplacePass cache batch [] ++
      cache.filter (fun o => match cachedKey o with
        | some t => !((batchKeys batch).contains t)
        | none => false)

/-! ## Incremental merge (`incremental_update_cache`, api.py:1957-2038) -/

/-- Field-wise change detection over the keys present on the fetched row,
excluding the editable keys (api.py:2010-2016). -/
def chgF {α : Type} [DecidableEq α] (newV oldV : Option α) : Bool :=
  match newV with
  | some v => !(oldV == some v)
  | none => false

/-- `order_changed`: some non-editable key present on the fetched row differs
from the cached row (api.py:2010-2016). -/
def nonEditableChanged (newO old : Order) : Bool :=
  chgF newO.transaction old.transaction || chgF newO.transactionID old.transactionID ||
  chgF newO.transactionCap old.transactionCap || chgF newO.order_id old.order_id ||
  chgF newO.orderIDCap old.orderIDCap || chgF newO.manualId old.manualId ||
  chgF newO.idLow old.idLow || chgF newO.idCap old.idCap ||
  chgF newO.name old.name || chgF newO.dataF old.dataF ||
  chgF newO.tarih old.tarih || chgF newO.tarihh old.tarihh ||
  chgF newO.created_at old.created_at || chgF newO.sortKeyF old.sortKeyF ||
  chgF newO.isManual old.isManual

/-- `new_orders_map[t]`: dict assignment in batch order, so the last batch
row with truthy fetched key `t` (api.py:1978-1982). -/
def lookupBatchLast (batch : List Order) (t : String) : Option Order :=
  (batch.filter (fun o => fetchedKey o == some t)).getLast?

/-- Deduplicate a key list keeping first occurrences (the membership-based
set semantics the incremental merge relies on; CPython set iteration order
is unspecified, and no behaviour proved here depends on it). -/
def dedupKeys (l : List String) : List String :=
  l.foldl (fun acc t => if acc.contains t then acc else acc ++ [t]) []

/-- Replace the first row whose cached key is `t`
(`orders_cache[orders_cache.index(existing_order)] = new_order`,
api.py:2022-2024; the first row equal to `existing_order` is the first row
with its cached key, since equal dicts have equal keys). -/
def replaceFirstByKey (l : List Order) (t : String) (o' : Order) : List Order :=
  match l with
  | [] => []
  | x :: rest =>
    if cachedKey x == some t then o' :: rest else x :: replaceFirstByKey rest t o'

/-- One iteration of the incremental update loop over a currently-cached
identifier (api.py:1997-2026): if the fetch carries that identifier and a
non-editable field changed, preserve editable fields onto the fetched row
and replace the cached row in place, recording that a change happened. -/
def incrStep (batch : List Order) (st : List Order × Bool) (tid : String) :
    List Order × Bool :=
  match lookupBatchLast batch tid with
  | none => st
  | some newO =>
    match st.1.find? (fun o => cachedKey o == some tid) with
    | none => st
    | some old =>
      if nonEditableChanged newO old then
        (replaceFirstByKey st.1 tid (preserve_editable_fields newO old), true)
      else st

/-- `incremental_update_cache` (api.py:1957-2038) as a function of the fetch
result and the previous cache; returns the new cache and the changed flag
the source returns. -/
def incremental_update_cache (fetched : Option (List Order)) (cache : List Order) :
    List Order × Bool :=
  match fetched with
  | none => (cache, false)
  | some batch =>
    let currentIds := dedupKeys (cache.filterMap cachedKey)
    let newIds := (dedupKeys (batch.filterMap fetchedKey)).filter
      (fun t => !(currentIds.contains t))
    let appended := newIds.filterMap (lookupBatchLast batch)
    let stepped := currentIds.foldl (incrStep batch) (cache ++ appended, false)
    (stepped.1, !newIds.isEmpty || stepped.2)

/-! ## Dates

`datetime` values are compared and rendered; we encode a naive datetime by
its signed count of seconds on the proleptic Gregorian calendar (days from
the civil epoch 1970-01-01 times 86400 plus the time of day), which is a
strictly monotone image of CPython's field-lexicographic `datetime`
ordering. -/

/-- Days from 1970-01-01 of a civil date (proleptic Gregorian), the standard
`days_from_civil` computation. -/
def daysFromCivil (y m d : ℤ) : ℤ :=
  let y2 := if m ≤ 2 then y - 1 else y
  let era := Int.fdiv y2 400
  let yoe := y2 - era * 400
  let mShift := if 2 < m then m - 3 else m + 9
  let doy := Int.fdiv (153 * mShift + 2) 5 + d - 1
  let doe := yoe * 365 + Int.fdiv yoe 4 - Int.fdiv yoe 100 + doy
  era * 146097 + doe - 719468

/-- Seconds-since-epoch encoding of a midnight datetime. -/
def dateSeconds (y m d : ℕ) : ℤ := daysFromCivil y m d * 86400

/-- `datetime.min` (0001-01-01 00:00:00). -/
def dtMinSec : ℤ := dateSeconds 1 1 1

/-- Is `y` a Gregorian leap year? -/
def isLeap (y : ℕ) : Bool := (y % 4 == 0 && y % 100 != 0) || y % 400 == 0

/-- Number of days of month `m` in year `y`. -/
def daysInMonth (y m : ℕ) : ℕ :=
  if m == 2 then (if isLeap y then 29 else 28)
  else if m ∈ ([4, 6, 9, 11] : List ℕ) then 30 else 31

/-- `datetime(y, m, d)` constructor validation (raises otherwise). -/
def validCalDate (y m d : ℕ) : Bool :=
  1 ≤ y && y ≤ 9999 && 1 ≤ m && m ≤ 12 && 1 ≤ d && d ≤ daysInMonth y m

/-- Split a character list on a separator character. -/
def splitChar (sep : Char) : List Char → List (List Char)
  | [] => [[]]
  | c :: rest =>
    match splitChar sep rest with
    | [] => [[c]]
    | h :: t => if c = sep then [] :: h :: t else (c :: h) :: t

/-- A 1-to-`maxLen` digit `strptime` field (the `%d`/`%m` patterns),
returning its numeric value. -/
def numField (maxLen : ℕ) (cs : List Char) : Option ℕ :=
  if cs.isEmpty || decide (maxLen < cs.length) || !(cs.all Char.isDigit) then none
  else some (cs.foldl (fun acc c => acc * 10 + (c.toNat - 48)) 0)

/-- The exactly-four-digit `%Y` `strptime` field. -/
def yearField (cs : List Char) : Option ℕ :=
  if cs.length == 4 && cs.all Char.isDigit then
    some (cs.foldl (fun acc c => acc * 10 + (c.toNat - 48)) 0)
  else none

/-- `datetime.strptime(s, "%m/%d/%Y")`: full-string match of three
slash-separated fields, then constructor validation. -/
def strptime_mdY (s : String) : Option (ℕ × ℕ × ℕ) :=
  match splitChar '/' s.data with
  | [mcs, dcs, ycs] => do
    let m ← numField 2 mcs
    let d ← numField 2 dcs
    let y ← yearField ycs
    if validCalDate y m d then some (y, m, d) else none
  | _ => none

/-- `datetime.strptime(s, "%d.%m.%Y")`. -/
def strptime_dmY (s : String) : Option (ℕ × ℕ × ℕ) :=
  match splitChar '.' s.data with
  | [dcs, mcs, ycs] => do
    let d ← numField 2 dcs
    let m ← numField 2 mcs
    let y ← yearField ycs
    if validCalDate y m d then some (y, m, d) else none
  | _ => none

/-- `datetime.strptime(s, "%d/%m/%Y")`. -/
def strptime_dmY_slash (s : String) : Option (ℕ × ℕ × ℕ) :=
  match splitChar '/' s.data with
  | [dcs, mcs, ycs] => do
    let d ← numField 2 dcs
    let m ← numField 2 mcs
    let y ← yearField ycs
    if validCalDate y m d then some (y, m, d) else none
  | _ => none

/-- `datetime.strptime(s, "%Y-%m-%d")`. -/
def strptime_Ymd (s : String) : Option (ℕ × ℕ × ℕ) :=
  match splitChar '-' s.data with
  | [ycs, mcs, dcs] => do
    let y ← yearField ycs
    let m ← numField 2 mcs
    let d ← numField 2 dcs
    if validCalDate y m d then some (y, m, d) else none
  | _ => none

/-! ## Latest-N quick sync (`sync_latest_orders`, api.py:2138-2217) -/

/-- `get_order_date` (api.py:2148-2162): best-effort date of a fetched row
from its `Data` column; `now` is the `datetime.now()` fallback taken when
the value has neither a `/` nor a `.`; unparsable separator-bearing values
and missing/empty values yield `datetime.min`. -/
def get_order_date (now : ℤ) (o : Order) : ℤ :=
  match o.dataF with
  | none => dtMinSec
  | some raw =>
    if raw = "" then dtMinSec
    else
      let ds := pyStrip raw
      if ds.data.contains '/' then
        match strptime_mdY ds with
        | some (y, m, d) => dateSeconds y m d
        | none => dtMinSec
      else if ds.data.contains '.' then
        match strptime_dmY ds with
        | some (y, m, d) => dateSeconds y m d
        | none => dtMinSec
      else now

/-- `sorted(new_orders, key=get_order_date, reverse=True)` (api.py:2165):
CPython's sort is stable and `reverse=True` keeps ties in source order;
any stable sort realises it, here insertion sort under the reversed key
comparison. -/
def syncSorted (now : ℤ) (batch : List Order) : List Order :=
  batch.insertionSort (fun a b => get_order_date now b ≤ get_order_date now a)

/-- `sorted_orders[:20]` (api.py:2168). -/
def syncLatest20 (now : ℤ) (batch : List Order) : List Order :=
  (syncSorted now batch).take 20

/-- `transactions_processed` after the first sync pass: the truthy cached
keys of the latest-20 rows (api.py:2184-2190). -/
def syncProcessedIds (now : ℤ) (batch : List Order) : List String :=
  (syncLatest20 now batch).filterMap cachedKey

/-- `sync_latest_orders` (api.py:2138-2217) as a function of the fetch
result and the previous cache.  Note that both the fetched and the cached
side here use the `transaction`-first key (api.py:2178, 2188). -/
def sync_latest_orders (now : ℤ) (fetched : Option (List Order))
    (cache : List Order) : List Order :=
  match fetched with
  | none => cache
  | some batch =>
    let latest := syncLatest20 now batch
    let processed := syncProcessedIds now batch
    (latest.filterMap (fun o => match cachedKey o with
      | none => none
      | some t => some (match lookupByCachedKey cache t with
        | some m => preserve_editable_fields o m
        | none => o))) ++
    cache.filter (fun o => match cachedKey o with
      | some t => !(processed.contains t)
      | none => false)

/-! ## ISO datetimes

`parse_iso_datetime` delegates to `datetime.fromisoformat`; we model the
canonical `YYYY-MM-DD[{T,space}HH:MM[:SS[.f{1..6}]][±HH:MM]]` shapes (the
fragment accepted by every CPython version the code runs under, and the
only shapes the engine itself produces). -/

/-- A CPython `datetime`: civil fields plus an optional UTC offset in
minutes (`tzinfo`). -/
structure PyDateTime where
  year : ℕ
  month : ℕ
  day : ℕ
  hour : ℕ
  minute : ℕ
  second : ℕ
  micro : ℕ
  tzMin : Option ℤ
deriving DecidableEq

/-- Take exactly `n` leading digits, returning their value and the rest. -/
def takeDigits (n : ℕ) (cs : List Char) : Option (ℕ × List Char) :=
  let pre := cs.take n
  if pre.length = n && pre.all Char.isDigit then
    some (pre.foldl (fun acc c => acc * 10 + (c.toNat - 48)) 0, cs.drop n)
  else none

/-- Expect one specific character. -/
def expectChar (c : Char) : List Char → Option (List Char)
  | x :: rest => if x = c then some rest else none
  | [] => none

/-- Parse the `±HH:MM` UTC-offset suffix (must consume the whole rest). -/
def parseTzSuffix (cs : List Char) : Option ℤ :=
  match cs with
  | sign :: rest =>
    if sign = '+' || sign = '-' then do
      let (h, r) ← takeDigits 2 rest
      let r ← expectChar ':' r
      let (m, r) ← takeDigits 2 r
      if r.isEmpty && h ≤ 23 && m ≤ 59 then
        some ((if sign = '-' then -1 else 1) * (h * 60 + m))
      else none
    else none
  | [] => none

/-- Parse `.f{1..6}` fractional seconds into microseconds, returning the
rest. -/
def parseFrac (cs : List Char) : Option (ℕ × List Char) :=
  match cs with
  | '.' :: rest =>
    let ds := rest.takeWhile Char.isDigit
    if ds.isEmpty || decide (6 < ds.length) then none
    else
      let v := ds.foldl (fun acc c => acc * 10 + (c.toNat - 48)) 0
      some (v * 10 ^ (6 - ds.length), rest.drop ds.length)
  | _ => some (0, cs)

/-- The time-of-day part `HH:MM[:SS[.ffffff]]` plus optional offset. -/
def parseTimePart (cs : List Char) : Option (ℕ × ℕ × ℕ × ℕ × Option ℤ) := do
  let (h, r) ← takeDigits 2 cs
  let r ← expectChar ':' r
  let (mi, r) ← takeDigits 2 r
  let (sec, fr, r) ← (match expectChar ':' r with
    | some r2 => do
      let (sec, r3) ← takeDigits 2 r2
      let (fr, r4) ← parseFrac r3
      some (sec, fr, r4)
    | none => some (0, 0, r) : Option (ℕ × ℕ × List Char))
  if h ≤ 23 && mi ≤ 59 && sec ≤ 59 then
    if r.isEmpty then some (h, mi, sec, fr, none)
    else do
      let off ← parseTzSuffix r
      some (h, mi, sec, fr, some off)
  else none

/-- `datetime.fromisoformat` on the canonical shapes described above. -/
def fromIsoFormat (s : String) : Option PyDateTime := do
  let (y, r) ← takeDigits 4 s.data
  let r ← expectChar '-' r
  let (mo, r) ← takeDigits 2 r
  let r ← expectChar '-' r
  let (d, r) ← takeDigits 2 r
  if !validCalDate y mo d then none
  else match r with
    | [] => some ⟨y, mo, d, 0, 0, 0, 0, none⟩
    | sep :: rest =>
      if sep = 'T' || sep = ' ' then do
        let (h, mi, sec, fr, off) ← parseTimePart rest
        some ⟨y, mo, d, h, mi, sec, fr, off⟩
      else none

/-- `parse_iso_datetime` (api.py:173-184): map a trailing `Z` to `+00:00`,
try `fromisoformat`, and on failure retry on the part before the first
`.` (stripping fractional seconds or an unparsed tail). -/
def parse_iso_datetime (s : String) : Option PyDateTime :=
  if s = "" then none
  else
    let normalized :=
      if s.data.getLast? = some 'Z' then ⟨s.data.dropLast ++ "+00:00".data⟩ else s
    match fromIsoFormat normalized with
    | some dt => some dt
    | none => fromIsoFormat ⟨(splitChar '.' normalized.data).headD []⟩

/-- `try_parse_order_date` (api.py:3314-3332) on an optional string value:
ISO first, then `%d.%m.%Y`, `%Y-%m-%d`, `%d/%m/%Y`, `%m/%d/%Y`, all on the
stripped string; `strptime` successes are naive midnights. -/
def try_parse_order_date (v : Option String) : Option PyDateTime :=
  match v with
  | none => none
  | some s0 =>
    if s0 = "" then none
    else
      let normalized := pyStrip s0
      if normalized = "" then none
      else
        match parse_iso_datetime normalized with
        | some dt => some dt
        | none =>
          let mid := fun (p : ℕ × ℕ × ℕ) =>
            (⟨p.1, p.2.1, p.2.2, 0, 0, 0, 0, none⟩ : PyDateTime)
          match strptime_dmY normalized with
          | some p => some (mid p)
          | none =>
            match strptime_Ymd normalized with
            | some p => some (mid p)
            | none =>
              match strptime_dmY_slash normalized with
              | some p => some (mid p)
              | none =>
                match strptime_mdY normalized with
                | some p => some (mid p)
                | none => none

/-- Zero-padded decimal rendering. -/
def padNum (width n : ℕ) : List Char :=
  let ds := Nat.toDigits 10 n
  List.replicate (width - ds.length) '0' ++ ds

/-- `datetime.isoformat()`: `YYYY-MM-DDTHH:MM:SS`, fractional seconds only
when nonzero, `±HH:MM` only when aware. -/
def isoformat (dt : PyDateTime) : String :=
  ⟨padNum 4 dt.year ++ '-' :: padNum 2 dt.month ++ '-' :: padNum 2 dt.day ++
    'T' :: padNum 2 dt.hour ++ ':' :: padNum 2 dt.minute ++ ':' :: padNum 2 dt.second ++
    (if dt.micro = 0 then [] else '.' :: padNum 6 dt.micro) ++
    (match dt.tzMin with
      | none => []
      | some off =>
        (if off < 0 then '-' else '+') ::
          padNum 2 (Int.toNat (|off| / 60)) ++ ':' :: padNum 2 (Int.toNat (|off| % 60)))⟩

/-! ## Unified view builder (`transform_orders_for_frontend`, api.py:3361-3421) -/

/-- `str(order.get(k, ''))` for the modelled string-valued keys. -/
def strDget (v : Option String) : String := v.getD ""

/-- `get_checkbox_string` (api.py:3347-3351) on the two looked-up values. -/
def get_checkbox_string (primary fallbackV : Option String) : String :=
  let v := if primary = none || primary = some "" then fallbackV else primary
  match v with
  | some s => if s = "" then "FALSE" else s
  | none => "FALSE"

/-- `get_note_string` (api.py:3354-3358). -/
def get_note_string (o : Order) : String :=
  let v := if o.note = none || o.note = some "" then o.importantnote else o.note
  match v with
  | some s => s
  | none => ""

/-- `determine_sort_key` (api.py:3334-3345); `nowIso` is the
`datetime.utcnow().isoformat()` fallback. -/
def determine_sort_key (nowIso : String) (o : Order) : String :=
  match try_parse_order_date o.tarih with
  | some dt => isoformat dt
  | none =>
    match try_parse_order_date o.tarihh with
    | some dt => isoformat dt
    | none =>
      match try_parse_order_date o.created_at with
      | some dt => isoformat dt
      | none =>
        match try_parse_order_date o.sortKeyF with
        | some dt => isoformat dt
        | none => nowIso

/-- The flat dict built for one cached order (api.py:3369-3406), restricted
to the modelled keys; every unmodelled output key is a plain `str(...)`
passthrough that no claim touches. -/
def transformOrder (o : Order) : Order :=
  { transaction := some (strDget o.transactionID),
    produce := some (get_checkbox_string o.produce o.kesildi),
    kesildi := some (get_checkbox_string o.kesildi o.produce),
    ready := some (get_checkbox_string o.ready o.hazir),
    hazir := some (get_checkbox_string o.hazir o.ready),
    shipped := some (get_checkbox_string o.shipped o.gonderildi),
    gonderildi := some (get_checkbox_string o.gonderildi o.shipped),
    note := some (get_note_string o),
    importantnote := some (get_note_string o),
    tarih := some (strDget o.dataF),
    dataF := some (strDget o.dataF),
    isManual := some false }

/-- One cached order through the view: transform, then
`transformed["_sortKey"] = determine_sort_key(transformed)`
(api.py:3407-3408; at that point the dict has no `_sortKey` key). -/
def viewOfCached (nowIso : String) (o : Order) : Order :=
  let t := transformOrder o
  { t with sortKeyF := some (determine_sort_key nowIso t) }

/-- One manual order through the view: `setdefault("isManual", True)` and
`setdefault("_sortKey", created_at or utcnow)` (api.py:3414-3417). -/
def manualView (nowIso : String) (m : Order) : Order :=
  let m1 := if m.isManual.isSome then m else { m with isManual := some true }
  if m1.sortKeyF.isSome then m1
  else
    { m1 with sortKeyF := some (match m1.created_at with
        | some s => if s = "" then nowIso else s
        | none => nowIso) }

/-- `item.get("_sortKey") or ""` (api.py:3420). -/
def sortVal (o : Order) : String := (o.sortKeyF).getD ""

/-- CPython string `<`: code-point lexicographic. -/
def charListLt : List Char → List Char → Bool
  | _, [] => false
  | [], _ :: _ => true
  | a :: as, b :: bs => a.toNat < b.toNat || (a.toNat == b.toNat && charListLt as bs)

/-- CPython string `<` on `str` values. -/
def pyStrLt (a b : String) : Bool := charListLt a.data b.data

/-- CPython string `≤`. -/
def pyStrLe (a b : String) : Bool := !(pyStrLt b a)

/-- The comparator realised by `combined.sort(key=..., reverse=True)`:
`a` may precede `b` iff `key b ≤ key a` (CPython's reverse sort is stable,
keeping ties in pre-sort order). -/
def viewLe (a b : Order) : Bool := pyStrLe (sortVal b) (sortVal a)

/-- `transform_orders_for_frontend` (api.py:3361-3421): manual payloads
first, then transformed cached orders, stably sorted descending by
`_sortKey` (again realised by the stable insertion sort). -/
def transform_orders_for_frontend (nowIso : String) (cache manuals : List Order) :
    List Order :=
  ((manuals.map (manualView nowIso)) ++ (cache.map (viewOfCached nowIso))).insertionSort
    (fun a b => viewLe a b = true)

/-! ## Dashboard aggregation (`compute_dashboard_order_stats`, api.py:3435-3525)

Civil days are represented by their `daysFromCivil` number; the histogram
dicts keyed by ISO date strings become association lists keyed by that
number (ISO date rendering is injective on valid dates).  `ISTANBUL_TZ` is
the fixed `UTC+3` offset (api.py:1635-1637; Istanbul has no DST).  The
`monthly_trend` / `stage_trend` output lists are verbatim re-listings of
the two histograms and are not re-materialised. -/

/-- `parse_completion_timestamp` (api.py:3110-3119): parse, defaulting a
naive result to UTC. -/
def parse_completion_timestamp (v : Option String) : Option PyDateTime :=
  match v with
  | none => none
  | some s =>
    if s = "" then none
    else
      match parse_iso_datetime s with
      | some dt => some (if dt.tzMin = none then { dt with tzMin := some 0 } else dt)
      | none => none

/-- The instant of an aware datetime, in seconds from the civil epoch. -/
def instantSec (dt : PyDateTime) : ℤ :=
  daysFromCivil dt.year dt.month dt.day * 86400 +
    dt.hour * 3600 + dt.minute * 60 + dt.second - (dt.tzMin.getD 0) * 60

/-- `timestamp.astimezone(ISTANBUL_TZ).date()` as a civil-day number. -/
def istanbulDay (dt : PyDateTime) : ℤ := Int.fdiv (instantSec dt + 3 * 3600) 86400

/-- `completion_date_from_entry` (api.py:3121-3125). -/
def completion_date_from_entry (e : CompletionEntry) : Option ℤ :=
  (parse_completion_timestamp e.completed_at).map istanbulDay

/-- `.date()` of a (possibly aware) datetime: its civil fields, no
conversion. -/
def naiveDay (dt : PyDateTime) : ℤ := daysFromCivil dt.year dt.month dt.day

/-- The per-order date used for both stage bucketing and the completion
fallback: `order.get("tarih") or order.get("tarihh") or
order.get("created_at") or order.get("_sortKey")` fed to the parser
(api.py:3460-3462, 3486-3489). -/
def orderStageDate (o : Order) : Option PyDateTime :=
  try_parse_order_date (firstTruthy [o.tarih, o.tarihh, o.created_at, o.sortKeyF])

/-- Running state of the aggregation loop. -/
structure DashState where
  log : Log
  completed : ℕ
  pending : ℕ
  produce_only : ℕ
  ready_total : ℕ
  shipped_total : ℕ
  daily_completed : ℕ
  dayCounts : List (ℤ × ℕ)
  stageDayCounts : List (ℤ × (ℕ × ℕ × ℕ))

/-- The 30-day window `[today-29, …, today]` (api.py:3444). -/
def dashWindow (today : ℤ) : List ℤ :=
  (List.range 30).map (fun i => today - 29 + i)

/-- `day_counts[day_key] += 1` guarded by `if day_key in day_counts`. -/
def bumpDay (l : List (ℤ × ℕ)) (k : ℤ) : List (ℤ × ℕ) :=
  l.map (fun p => if p.1 = k then (p.1, p.2 + 1) else p)

/-- The stage-histogram update for one order's flags at its day key. -/
def bumpStageDay (l : List (ℤ × (ℕ × ℕ × ℕ))) (k : ℤ) (produce ready shipped : Bool) :
    List (ℤ × (ℕ × ℕ × ℕ)) :=
  l.map (fun p =>
    if p.1 = k then
      (p.1, (p.2.1 + (if produce then 1 else 0), p.2.2.1 + (if ready then 1 else 0),
        p.2.2.2 + (if shipped then 1 else 0)))
    else p)

/-- The per-identifier reconciliation block of the loop (api.py:3471-3485):
demote a stored-complete entry whose live flags are no longer all true, or
read the completion date of a still-complete entry, demoting it when its
`completed_at` does not parse; returns the updated log and the completion
date found. -/
def dashReconcile (log : Log) (o : Order) (is_complete_now : Bool) :
    Log × Option ℤ :=
  match get_order_identifier o none with
  | none => (log, none)
  | some id =>
    match log id with
    | none => (log, none)
    | some e =>
      if !is_complete_now && e.is_complete then
        (logSet log id { e with is_complete := false, completed_at := none }, none)
      else if is_complete_now && e.is_complete && truthy e.completed_at then
        match completion_date_from_entry e with
        | some day => (log, some day)
        | none => (logSet log id { e with is_complete := false, completed_at := none }, none)
      else (log, none)

/-- One iteration of the aggregation loop (api.py:3452-3501). -/
def dashStep (today : ℤ) (st : DashState) (o : Order) : DashState :=
  let (produce, ready, shipped) := get_order_stage_flags o
  let st := { st with
    produce_only := st.produce_only + (if produce && !ready then 1 else 0),
    ready_total := st.ready_total + (if ready then 1 else 0),
    shipped_total := st.shipped_total + (if shipped then 1 else 0) }
  let st := match orderStageDate o with
    | some dt =>
      { st with stageDayCounts := bumpStageDay st.stageDayCounts (naiveDay dt) produce ready shipped }
    | none => st
  let is_complete_now := produce && ready && shipped
  let rec1 := dashReconcile st.log o is_complete_now
  let st := { st with log := rec1.1 }
  let completion_date := rec1.2
  let completion_date :=
    if is_complete_now && completion_date = none then
      (orderStageDate o).map naiveDay
    else completion_date
  if produce && ready && shipped then
    let st := { st with completed := st.completed + 1 }
    match completion_date with
    | some day =>
      { st with
        daily_completed := st.daily_completed + (if day = today then 1 else 0),
        dayCounts := bumpDay st.dayCounts day }
    | none => st
  else { st with pending := st.pending + 1 }

/-- `compute_dashboard_order_stats` (api.py:3435-3525): fold the loop over
the order list from zeroed counters and the ambient completion log. -/
def compute_dashboard_order_stats (today : ℤ) (orders : List Order) (log : Log) :
    DashState :=
  orders.foldl (dashStep today)
    { log := log, completed := 0, pending := 0, produce_only := 0, ready_total := 0,
      shipped_total := 0, daily_completed := 0,
      dayCounts := (dashWindow today).map (fun d => (d, 0)),
      stageDayCounts := (dashWindow today).map (fun d => (d, (0, 0, 0))) }

/-- The field update the preserver performs: the preserved source value when
there is one, the target's old value otherwise. -/
def updF (pv old : Option String) : Option String :=
  match pv with
  | some v => some v
  | none => old

/-- The orphan-retention predicate of the full replace. -/
def orphanPred (batch : List Order) (o : Order) : Bool :=
  match cachedKey o with
  | some t => !((batchKeys batch).contains t)
  | none => false

/-- A tracker-scenario order: fixed identifier `T`, given flag strings. -/
def trOrder (p r s : String) : Order :=
  { transaction := some "T", produce := some p, ready := some r, shipped := some s }

/-- The stored `is_complete` of an optional log entry (`bool(entry.get(...))`
with a `{}` default). -/
def wasComplete (e : Option CompletionEntry) : Bool :=
  (e.map (·.is_complete)).getD false

/-- Length of the history of an optional log entry. -/
def optHistLen (e : Option CompletionEntry) : ℕ :=
  (e.map (·.history.length)).getD 0

/-- One complete/incomplete cycle of the tracker for identifier `T`, the
completing update stamped `toString k`. -/
def cycleStep (k : ℕ) (log : Log) : Log :=
  update_order_completion_tracking (toString k ++ "x") (trOrder "TRUE" "FALSE" "TRUE") none
    (update_order_completion_tracking (toString k) (trOrder "TRUE" "TRUE" "TRUE") none log)

/-- `n` sequential complete/incomplete cycles starting from an empty log. -/
def cycleLog : ℕ → Log
  | 0 => fun _ => none
  | n + 1 => cycleStep (n + 1) (cycleLog n)

/-- The history after `n` cycles, computed directly. -/
def cycleHist : ℕ → List String
  | 0 => []
  | n + 1 => trimHistory (cycleHist n ++ [toString (n + 1)])

/-- Concrete rows for the C2 counterexample and witness. -/
def rowFetchedT1 : Order :=
  { transactionID := some "T1", produce := some "FALSE", kesildi := some "FALSE",
    note := some "", name := some "x" }

def rowCachedT1 : Order :=
  { transactionID := some "T1", produce := some "TRUE", kesildi := some "FALSE",
    note := some "hello" }

def rowMergedT1 : Order :=
  { transactionID := some "T1", produce := some "FALSE", kesildi := some "FALSE",
    note := some "hello", importantnote := some "hello", name := some "x" }

def rowFetchedW : Order :=
  { transaction := some "W", transactionID := some "W", produce := some "FALSE",
    note := some "" }

def rowCachedW : Order :=
  { transaction := some "W", produce := some "TRUE", note := some "hello" }

/-- Concrete rows for the C9 counterexample. -/
def rowOldDated : Order := { transaction := some "A", dataF := some "01.01.2020" }

def rowGibberishDated : Order := { transaction := some "B", dataF := some "hello" }

/-- C7 witness rows: a manual order and a synced row sharing the
`_sortKey` value `2025-01-02T00:00:00`. -/
def manualM : Order :=
  { manualId := some "M1", sortKeyF := some "2025-01-02T00:00:00",
    isManual := some true }

def syncedS : Order := { transactionID := some "S1", dataF := some "02.01.2025" }

/-! ## Full-replace idempotence scaffolding (C3) -/

/-- The merged row the first pass of `update_cache` produces for one fetched
row: preserve edits from the matching cached entry when one exists
(api.py:1938-1940). -/
def mergeRow (cache : List Order) (o : Order) : Order :=
  match fetchedKey o with
  | some t =>
    match lookupByCachedKey cache t with
    | some m => preserve_editable_fields o m
    | none => o
  | none => o

/-- The deduplication skeleton of the first pass: keep the first fetched row
per unseen truthy identifier, drop the rest (api.py:1936-1942). -/
def dedupBatch : List Order → List String → List Order
  | [], _ => []
  | o :: rest, seen =>
    match fetchedKey o with
    | some t =>
      if seen.contains t then dedupBatch rest seen
      else o :: dedupBatch rest (t :: seen)
    | none => dedupBatch rest seen

/-- A fetched row whose two identifier spellings agree and whose editable
frontend/backend key pairs carry equal values. -/
def rowCoherent (o : Order) : Bool :=
  (fetchedKey o == cachedKey o) && (o.produce == o.kesildi) &&
  (o.ready == o.hazir) && (o.shipped == o.gonderildi) &&
  (o.note == o.importantnote)

/-- A batch row whose two identifier keys disagree:
`Transaction ID` is `Y` but `transaction` is `X`. -/
def rowSplitKey : Order := { transaction := some "X", transactionID := some "Y" }

/-- A coherent batch row for the idempotence witness. -/
def rowCohZ : Order :=
  { transaction := some "Z", transactionID := some "Z",
    produce := some "TRUE", kesildi := some "TRUE" }

/-- A cached row matching `rowCohZ` that carries user edits. -/
def rowCachedZ : Order :=
  { transaction := some "Z", kesildi := some "FALSE", note := some "n" }

/-! ## Basic lemmas about the preserver and merge keys -/

theorem preserve_eq (t s : Order) :
    preserve_editable_fields t s = { t with
      produce := updF (preservedVal s.kesildi s.produce) t.produce,
      kesildi := updF (preservedVal s.kesildi s.produce) t.kesildi,
      ready := updF (preservedVal s.hazir s.ready) t.ready,
      hazir := updF (preservedVal s.hazir s.ready) t.hazir,
      shipped := updF (preservedVal s.gonderildi s.shipped) t.shipped,
      gonderildi := updF (preservedVal s.gonderildi s.shipped) t.gonderildi,
      note := updF (preservedVal s.importantnote s.note) t.note,
      importantnote := updF (preservedVal s.importantnote s.note) t.importantnote } := by
  unfold preserve_editable_fields updF
  cases preservedVal s.kesildi s.produce <;>
    cases preservedVal s.hazir s.ready <;>
      cases preservedVal s.gonderildi s.shipped <;>
        cases preservedVal s.importantnote s.note <;> rfl

@[simp] theorem preserve_transaction (t s : Order) :
    (preserve_editable_fields t s).transaction = t.transaction := by
  rw [preserve_eq]

@[simp] theorem preserve_transactionID (t s : Order) :
    (preserve_editable_fields t s).transactionID = t.transactionID := by
  rw [preserve_eq]

@[simp] theorem cachedKey_preserve (t s : Order) :
    cachedKey (preserve_editable_fields t s) = cachedKey t := by
  unfold cachedKey
  rw [preserve_transaction, preserve_transactionID]

@[simp] theorem fetchedKey_preserve (t s : Order) :
    fetchedKey (preserve_editable_fields t s) = fetchedKey t := by
  unfold fetchedKey
  rw [preserve_transaction, preserve_transactionID]

theorem truthy_isSome {v : Option String} (h : truthy v = true) : v.isSome = true := by
  cases v with
  | none => simp [truthy] at h
  | some s => rfl

theorem fetchedKey_isSome_iff_cachedKey (o : Order) :
    (fetchedKey o).isSome = (cachedKey o).isSome := by
  unfold fetchedKey cachedKey pyOr
  cases ht : truthy o.transaction <;> cases hi : truthy o.transactionID <;>
    simp [ht, hi, truthy_isSome]

theorem find?_filter_imp {α : Type} (l : List α) (p q : α → Bool)
    (h : ∀ a, p a = true → q a = true) : (l.filter q).find? p = l.find? p := by
  induction l with
  | nil => rfl
  | cons a rest ih =>
    by_cases hq : q a = true
    · simp only [List.filter_cons, hq, if_true, List.find?_cons]
      cases hp : p a
      · exact ih
      · rfl
    · have hp : p a = false := by
        cases hpa : p a
        · rfl
        · exact absurd (h a hpa) hq
      simp only [List.filter_cons, hq, if_false, List.find?_cons, hp]
      exact ih

theorem filter_filter_imp {α : Type} (l : List α) (p q : α → Bool)
    (h : ∀ a, p a = true → q a = true) : (l.filter q).filter p = l.filter p := by
  induction l with
  | nil => rfl
  | cons a rest ih =>
    by_cases hq : q a = true
    · simp only [List.filter_cons, hq, if_true]
      cases hp : p a <;> simp [hp, ih]
    · have hp : p a = false := by
        cases hpa : p a
        · rfl
        · exact absurd (h a hpa) hq
      simp only [List.filter_cons, hq, if_false, hp]
      exact ih

theorem update_cache_some (batch : List Order) (cache : List Order) :
    update_cache (some batch) cache =
      fullReplacePass cache batch [] ++ cache.filter (orphanPred batch) := rfl

theorem orphanPred_isSome {batch : List Order} {o : Order}
    (h : orphanPred batch o = true) : (cachedKey o).isSome = true := by
  unfold orphanPred at h
  cases hk : cachedKey o
  · rw [hk] at h; exact absurd h (by simp)
  · rfl

theorem fullReplacePass_nil (cache : List Order) (seen : List String) :
    fullReplacePass cache [] seen = [] := rfl

theorem fullReplacePass_cons_none {r : Order} (cache rest : List Order)
    (seen : List String) (hk : fetchedKey r = none) :
    fullReplacePass cache (r :: rest) seen = fullReplacePass cache rest seen := by
  conv_lhs => unfold fullReplacePass
  simp only [hk]

theorem fullReplacePass_cons_seen {r : Order} {t : String} (cache rest : List Order)
    (seen : List String) (hk : fetchedKey r = some t) (hs : seen.contains t = true) :
    fullReplacePass cache (r :: rest) seen = fullReplacePass cache rest seen := by
  conv_lhs => unfold fullReplacePass
  simp only [hk, hs, if_true]

theorem fullReplacePass_cons_new {r : Order} {t : String} (cache rest : List Order)
    (seen : List String) (hk : fetchedKey r = some t) (hs : seen.contains t = false) :
    fullReplacePass cache (r :: rest) seen =
      (match lookupByCachedKey cache t with
        | some m => preserve_editable_fields r m
        | none => r) :: fullReplacePass cache rest (t :: seen) := by
  conv_lhs => unfold fullReplacePass
  simp only [hk, hs, Bool.false_eq_true, if_false]

theorem mem_fullReplacePass_isSome {cache batch : List Order} {seen : List String}
    {o : Order} (h : o ∈ fullReplacePass cache batch seen) :
    (cachedKey o).isSome = true := by
  induction batch generalizing seen with
  | nil => simp [fullReplacePass_nil] at h
  | cons r rest ih =>
    cases hk : fetchedKey r with
    | none =>
      rw [fullReplacePass_cons_none cache rest seen hk] at h
      exact ih h
    | some t =>
      cases hs : seen.contains t with
      | true =>
        rw [fullReplacePass_cons_seen cache rest seen hk hs] at h
        exact ih h
      | false =>
        rw [fullReplacePass_cons_new cache rest seen hk hs] at h
        rcases List.mem_cons.mp h with h1 | h2
        · subst h1
          have hsome : (fetchedKey (match lookupByCachedKey cache t with
              | some m => preserve_editable_fields r m
              | none => r)).isSome = true := by
            cases hl : lookupByCachedKey cache t <;> simp [hl, hk]
          rw [fetchedKey_isSome_iff_cachedKey] at hsome
          exact hsome
        · exact ih h2

theorem fullReplacePass_filter (cache batch : List Order) (seen : List String) :
    fullReplacePass cache (batch.filter (fun o => (fetchedKey o).isSome)) seen =
      fullReplacePass cache batch seen := by
  induction batch generalizing seen with
  | nil => rfl
  | cons r rest ih =>
    cases hk : fetchedKey r with
    | none =>
      simp only [List.filter_cons, hk, Option.isSome_none, Bool.false_eq_true, if_false]
      rw [ih, fullReplacePass_cons_none cache rest seen hk]
    | some t =>
      simp only [List.filter_cons, hk, Option.isSome_some, if_true]
      cases hs : seen.contains t with
      | true =>
        rw [fullReplacePass_cons_seen cache _ seen hk hs,
          fullReplacePass_cons_seen cache rest seen hk hs, ih]
      | false =>
        rw [fullReplacePass_cons_new cache _ seen hk hs,
          fullReplacePass_cons_new cache rest seen hk hs, ih]

theorem batchKeys_filter (batch : List Order) :
    batchKeys (batch.filter (fun o => (fetchedKey o).isSome)) = batchKeys batch := by
  induction batch with
  | nil => rfl
  | cons r rest ih =>
    cases hk : fetchedKey r with
    | none =>
      simp only [batchKeys, List.filter_cons, hk, Option.isSome_none, Bool.false_eq_true,
        if_false, List.filterMap_cons]
      exact ih
    | some t =>
      simp only [batchKeys, List.filter_cons, hk, Option.isSome_some, if_true,
        List.filterMap_cons]
      exact congrArg (fun l => t :: l) ih

/-! ## C10: stage-flag truthiness -/

/-- C10.  A stage-flag value evaluates true under `normalize_flag_value`
(used by both the completion tracker and the dashboard aggregator via
`get_order_stage_flags`) iff it is boolean `True`, the number 1, or a
string whose stripped lower-cased form is one of `true/1/yes/y/t`; in
particular `None`, the empty string and `"FALSE"` evaluate false. -/
theorem flag_truthiness_table :
    (∀ v : PyVal, normalize_flag_value v = true ↔
      (v = .vbool true ∨ v = .vnum 1 ∨
        ∃ s, v = .vstr s ∧
          pyLower (pyStrip s) ∈ (["true", "1", "yes", "y", "t"] : List String))) ∧
    normalize_flag_value .vnone = false ∧
    normalize_flag_value (.vstr "") = false ∧
    normalize_flag_value (.vstr "FALSE") = false ∧
    normalize_flag_value (.vstr " tRuE ") = true ∧
    normalize_flag_value (.vnum 2) = false := by
  refine ⟨fun v => ?_, by decide, by decide, by decide, by decide, by decide⟩
  cases v with
  | vnone => simp [normalize_flag_value]
  | vbool b => cases b <;> simp [normalize_flag_value]
  | vnum q => simp [normalize_flag_value, beq_iff_eq]
  | vstr s => simp [normalize_flag_value]
  | vother => simp [normalize_flag_value]

/-! ## C8: fetch-failure semantics -/

theorem incr_empty_batch_fold (l : List String) (st : List Order × Bool) :
    l.foldl (incrStep []) st = st := by
  induction l generalizing st with
  | nil => rfl
  | cons t rest ih => exact ih st

/-- C8 (amended).  A failed fetch (`None`) leaves all three merge modes
without effect on the cache, and the incremental merge reports `false`;
an empty-but-successful fetch also leaves the incremental merge reporting
`false` without changes.  (Full replace and latest-N do run on an empty
fetch; see the counterexample.) -/
theorem fetch_failure_noop (now : ℤ) (cache : List Order) :
    update_cache none cache = cache ∧
    incremental_update_cache none cache = (cache, false) ∧
    sync_latest_orders now none cache = cache ∧
    incremental_update_cache (some []) cache = (cache, false) := by
  refine ⟨rfl, rfl, rfl, ?_⟩
  simp only [incremental_update_cache, List.filterMap_nil]
  rw [show dedupKeys [] = [] from rfl]
  simp only [List.filter_nil, List.filterMap_nil, List.append_nil]
  rw [incr_empty_batch_fold]
  rfl

/-- C8 counterexample.  An empty fetched row list ("fetch returned no
data") is not treated as a failure by the full replace: it rebuilds the
cache and drops a cached identifier-less row, so the merge is not a no-op
on the cache. -/
theorem empty_fetch_still_merges :
    update_cache (some []) [({ name := some "z" } : Order)] = [] ∧
    ([({ name := some "z" } : Order)] : List Order) ≠ [] := by
  exact ⟨rfl, by simp⟩

/-! ## C4: identifier-less rows -/

theorem lookup_filter_cache (cache : List Order) (t : String) :
    lookupByCachedKey (cache.filter (fun o => (cachedKey o).isSome)) t =
      lookupByCachedKey cache t := by
  apply find?_filter_imp
  intro a ha
  have heq : cachedKey a = some t := by
    exact eq_of_beq ha
  rw [heq]; rfl

theorem fullReplacePass_cache_filter (cache batch : List Order) (seen : List String) :
    fullReplacePass (cache.filter (fun o => (cachedKey o).isSome)) batch seen =
      fullReplacePass cache batch seen := by
  induction batch generalizing seen with
  | nil => rfl
  | cons r rest ih =>
    cases hk : fetchedKey r with
    | none =>
      rw [fullReplacePass_cons_none _ rest seen hk, fullReplacePass_cons_none _ rest seen hk, ih]
    | some t =>
      cases hs : seen.contains t with
      | true =>
        rw [fullReplacePass_cons_seen _ rest seen hk hs,
          fullReplacePass_cons_seen _ rest seen hk hs, ih]
      | false =>
        rw [fullReplacePass_cons_new _ rest seen hk hs,
          fullReplacePass_cons_new _ rest seen hk hs, ih, lookup_filter_cache]

/-- C4 (amended).  A row with no resolvable merge identifier is invisible
to the full replace on both sides: filtering identifier-less rows out of
the fetched batch and out of the cache does not change the result, and —
contrary to the claim — such fetched rows are not kept in source order:
every row of the result carries a resolvable identifier. -/
theorem identifierless_rows_ignored (batch cache : List Order) :
    update_cache (some batch) cache =
      update_cache (some (batch.filter (fun o => (fetchedKey o).isSome)))
        (cache.filter (fun o => (cachedKey o).isSome)) ∧
    (∀ o ∈ update_cache (some batch) cache, (cachedKey o).isSome = true) := by
  constructor
  · rw [update_cache_some, update_cache_some]
    have horph : orphanPred (batch.filter (fun o => (fetchedKey o).isSome)) = orphanPred batch := by
      funext o
      unfold orphanPred
      rw [batchKeys_filter]
    rw [horph, fullReplacePass_cache_filter, fullReplacePass_filter,
      filter_filter_imp _ _ _ (fun a ha => orphanPred_isSome ha)]
  · intro o ho
    rw [update_cache_some] at ho
    rcases List.mem_append.mp ho with h1 | h2
    · exact mem_fullReplacePass_isSome h1
    · exact orphanPred_isSome (List.of_mem_filter h2)

/-- C4 counterexample.  A fetched row with no resolvable identifier is
dropped by the full replace, not kept verbatim at its source position:
merging the batch `[{Name: "z"}]` into an empty cache yields the empty
cache. -/
theorem identifierless_row_dropped :
    update_cache (some [({ name := some "z" } : Order)]) ([] : List Order) = [] ∧
    ({ name := some "z" } : Order) ∉
      update_cache (some [({ name := some "z" } : Order)]) ([] : List Order) := by
  refine ⟨rfl, ?_⟩
  rw [show update_cache (some [({ name := some "z" } : Order)]) ([] : List Order) = []
    from rfl]
  simp

/-- C4 witness instantiation target: a merged batch row with an identifier. -/
theorem identifierless_rows_ignored_witness :
    (cachedKey ({ transactionID := some "W1" } : Order)).isSome = true := by
  refine (identifierless_rows_ignored [({ transactionID := some "W1" } : Order)] []).2
    ({ transactionID := some "W1" } : Order) ?_
  rw [update_cache_some]
  rw [show fullReplacePass [] [({ transactionID := some "W1" } : Order)] [] =
    [({ transactionID := some "W1" } : Order)] from rfl]
  simp

/-! ## Tracker reduction lemma -/

theorem tracker_reduce (now : String) (o : Order) (explicit : Option String)
    (log : Log) (id : String) (hid : get_order_identifier o explicit = some id) :
    update_order_completion_tracking now o explicit log =
      (if is_order_marked_complete o && !(wasComplete (log id)) then
        logSet log id ⟨true, some now,
          trimHistory ((((log id).map (·.history)).getD []) ++ [now])⟩
      else if !(is_order_marked_complete o) && wasComplete (log id) then
        match log id with
        | some e => logSet log id ⟨false, none, e.history⟩
        | none => logSet log id ⟨false, none, []⟩
      else log) := by
  unfold update_order_completion_tracking
  rw [hid]
  rfl

/-! ## C1: completion-tracker edge triggering -/

/-- C1.  The completion tracker is edge-triggered: on a rising edge (all
three stage flags true, stored flag false) it stores exactly one appended
timestamp and sets `completed_at` to it, touching no other identifier; on
a falling edge (stored flag true, flags no longer all true) it clears
`is_complete`/`completed_at` but keeps the history; when stored state
matches the live conjunction the log is unchanged.  Driving one identifier
through F,F,F / T,T,F / T,T,T yields exactly one history entry; reverting
to T,F,T clears `completed_at` keeping that entry; re-completing appends a
second, distinct entry. -/
theorem completion_tracker_edge_trigger :
    (∀ (now : String) (o : Order) (explicit : Option String) (log : Log) (id : String),
      get_order_identifier o explicit = some id →
      ((is_order_marked_complete o = true → wasComplete (log id) = false →
        update_order_completion_tracking now o explicit log id =
          some ⟨true, some now,
            trimHistory ((((log id).map (·.history)).getD []) ++ [now])⟩ ∧
        (∀ j, j ≠ id → update_order_completion_tracking now o explicit log j = log j)) ∧
       (is_order_marked_complete o = false → wasComplete (log id) = true →
        (∃ e, log id = some e ∧
          update_order_completion_tracking now o explicit log id =
            some ⟨false, none, e.history⟩) ∧
        (∀ j, j ≠ id → update_order_completion_tracking now o explicit log j = log j)) ∧
       (wasComplete (log id) = is_order_marked_complete o →
        update_order_completion_tracking now o explicit log = log))) ∧
    (update_order_completion_tracking "t1" (trOrder "FALSE" "FALSE" "FALSE") none
        (fun _ => none) = (fun _ => none) ∧
     update_order_completion_tracking "t2" (trOrder "TRUE" "TRUE" "FALSE") none
        (fun _ => none) = (fun _ => none) ∧
     (update_order_completion_tracking "t3" (trOrder "TRUE" "TRUE" "TRUE") none
        (fun _ => none)) "T" = some ⟨true, some "t3", ["t3"]⟩ ∧
     (update_order_completion_tracking "t4" (trOrder "TRUE" "FALSE" "TRUE") none
        (logSet (fun _ => none) "T" ⟨true, some "t3", ["t3"]⟩)) "T" =
        some ⟨false, none, ["t3"]⟩ ∧
     (update_order_completion_tracking "t5" (trOrder "TRUE" "TRUE" "TRUE") none
        (logSet (fun _ => none) "T" ⟨false, none, ["t3"]⟩)) "T" =
        some ⟨true, some "t5", ["t3", "t5"]⟩) := by
  constructor
  · intro now o explicit log id hid
    have hred := tracker_reduce now o explicit log id hid
    refine ⟨?_, ?_, ?_⟩
    · intro hc hw
      rw [hred]
      simp only [hc, hw, Bool.not_false, Bool.and_true, if_true]
      exact ⟨by simp [logSet], fun j hj => by simp [logSet, hj]⟩
    · intro hc hw
      rw [hred]
      simp only [hc, hw, Bool.not_false, Bool.not_true, Bool.and_true, Bool.false_and,
        Bool.and_false, Bool.false_eq_true, if_false, if_true]
      cases he : log id with
      | none => rw [he] at hw; simp [wasComplete] at hw
      | some e =>
        refine ⟨⟨e, rfl, by simp [logSet]⟩, fun j hj => by simp [logSet, hj]⟩
    · intro hmatch
      rw [hred]
      cases hc : is_order_marked_complete o
      · rw [hc] at hmatch
        simp only [hmatch, hc, Bool.false_and, Bool.and_false, Bool.false_eq_true, if_false]
      · rw [hc] at hmatch
        simp only [hmatch, hc, Bool.not_true, Bool.and_false, Bool.false_and,
          Bool.false_eq_true, if_false]
  · refine ⟨?_, ?_, by decide, by decide, by decide⟩
    · funext j
      rfl
    · funext j
      rfl

/-- C1 witness: the rising-edge clause applied at a concrete order and
empty log. -/
theorem completion_tracker_edge_trigger_witness :
    (update_order_completion_tracking "w1" (trOrder "TRUE" "TRUE" "TRUE") none
      (fun _ => none)) "T" = some ⟨true, some "w1", ["w1"]⟩ := by
  have h := (completion_tracker_edge_trigger.1 "w1" (trOrder "TRUE" "TRUE" "TRUE")
    none (fun _ => none) "T" (by decide)).1 (by decide) (by decide)
  exact h.1

/-! ## C5: history cap -/

theorem trimHistory_length (h : List String) : (trimHistory h).length = min h.length 50 := by
  unfold trimHistory
  split
  · rw [List.length_drop]
    omega
  · omega

theorem trimHistory_suffix (h : List String) : trimHistory h <:+ h := by
  unfold trimHistory
  split
  · exact List.drop_suffix _ _
  · exact List.suffix_refl _

theorem cycleStep_form (k : ℕ) (L : Log) (h : List String)
    (hhist : ((L "T").map (·.history)).getD [] = h)
    (hwas : wasComplete (L "T") = false)
    (hother : ∀ j, j ≠ "T" → L j = none) :
    (cycleStep k L) "T" = some ⟨false, none, trimHistory (h ++ [toString k])⟩ ∧
    (∀ j, j ≠ "T" → (cycleStep k L) j = none) := by
  have hu1 : update_order_completion_tracking (toString k) (trOrder "TRUE" "TRUE" "TRUE")
      none L = logSet L "T" ⟨true, some (toString k), trimHistory (h ++ [toString k])⟩ := by
    rw [tracker_reduce _ _ _ _ "T" (by decide)]
    rw [show is_order_marked_complete (trOrder "TRUE" "TRUE" "TRUE") = true from by decide,
      hwas, hhist]
    simp only [Bool.not_false, Bool.and_self, if_true]
  unfold cycleStep
  rw [hu1]
  rw [tracker_reduce _ _ _ _ "T" (by decide)]
  rw [show is_order_marked_complete (trOrder "TRUE" "FALSE" "TRUE") = false from by decide]
  have hval : (logSet L "T" ⟨true, some (toString k), trimHistory (h ++ [toString k])⟩) "T" =
      some ⟨true, some (toString k), trimHistory (h ++ [toString k])⟩ := by
    simp [logSet]
  rw [show wasComplete ((logSet L "T"
      ⟨true, some (toString k), trimHistory (h ++ [toString k])⟩) "T") = true from by
    rw [hval]; rfl]
  simp only [Bool.false_and, Bool.not_false, Bool.and_true, Bool.false_eq_true, if_false,
    Bool.not_true, if_true]
  rw [hval]
  constructor
  · simp [logSet]
  · intro j hj
    simp [logSet, hj, hother j hj]

theorem cycleLog_form (n : ℕ) :
    cycleLog (n + 1) "T" = some ⟨false, none, cycleHist (n + 1)⟩ ∧
    (∀ j, j ≠ "T" → cycleLog (n + 1) j = none) := by
  induction n with
  | zero =>
    have h := cycleStep_form 1 (fun _ => none) [] rfl rfl (fun _ _ => rfl)
    exact ⟨h.1, h.2⟩
  | succ n ih =>
    have h := cycleStep_form (n + 2) (cycleLog (n + 1)) (cycleHist (n + 1))
      (by rw [ih.1]; rfl) (by rw [wasComplete, ih.1]; rfl) ih.2
    exact ⟨h.1, h.2⟩

set_option maxRecDepth 4000 in
/-- C5.  Histories are bounded by 50 and evicted from the front: trimming
keeps a suffix of length `min len 50`, every tracker update preserves the
bound, and 51 sequential complete/incomplete cycles of one identifier
leave exactly the 50 most recent timestamps, the oldest (`"1"`) evicted. -/
theorem history_cap_fifty :
    (∀ h : List String, (trimHistory h).length = min h.length 50 ∧ trimHistory h <:+ h) ∧
    (∀ (now : String) (o : Order) (explicit : Option String) (log : Log),
      (∀ i, optHistLen (log i) ≤ 50) →
      ∀ i, optHistLen (update_order_completion_tracking now o explicit log i) ≤ 50) ∧
    cycleLog 51 "T" =
      some ⟨false, none, (List.range 50).map (fun k => toString (k + 2))⟩ ∧
    ((List.range 50).map (fun k : ℕ => toString (k + 2))).length = 50 ∧
    toString 1 ∉ (List.range 50).map (fun k : ℕ => toString (k + 2)) := by
  refine ⟨fun h => ⟨trimHistory_length h, trimHistory_suffix h⟩, ?_, ?_, by decide, by decide⟩
  · intro now o explicit log hbound i
    unfold update_order_completion_tracking
    cases hid : get_order_identifier o explicit with
    | none => exact hbound i
    | some id =>
      have hred := tracker_reduce now o explicit log id hid
      unfold update_order_completion_tracking at hred
      rw [hid] at hred
      rw [hred]
      by_cases h1 : (is_order_marked_complete o && !(wasComplete (log id))) = true
      · rw [if_pos h1]
        by_cases hii : i = id
        · subst hii
          rw [show (logSet log i ⟨true, some now,
              trimHistory ((((log i).map (·.history)).getD []) ++ [now])⟩) i =
              some ⟨true, some now,
                trimHistory ((((log i).map (·.history)).getD []) ++ [now])⟩ from by
            simp [logSet]]
          show (trimHistory ((((log i).map (·.history)).getD []) ++ [now])).length ≤ 50
          rw [trimHistory_length]
          omega
        · rw [show (logSet log id _) i = log i from by simp [logSet, hii]]
          exact hbound i
      · rw [if_neg h1]
        by_cases h2 : (!(is_order_marked_complete o) && wasComplete (log id)) = true
        · rw [if_pos h2]
          have hw : wasComplete (log id) = true := by
            cases hww : wasComplete (log id)
            · rw [hww, Bool.and_false] at h2
              exact absurd h2 (by simp)
            · rfl
          obtain ⟨e, he⟩ : ∃ e, log id = some e := by
            cases hle : log id with
            | none => rw [hle] at hw; simp [wasComplete] at hw
            | some e => exact ⟨e, rfl⟩
          rw [he]
          show optHistLen ((logSet log id ⟨false, none, e.history⟩) i) ≤ 50
          by_cases hii : i = id
          · subst hii
            rw [show (logSet log i ⟨false, none, e.history⟩) i =
                some ⟨false, none, e.history⟩ from by simp [logSet]]
            have hb := hbound i
            rw [he] at hb
            exact hb
          · rw [show (logSet log id ⟨false, none, e.history⟩) i = log i from by
              simp [logSet, hii]]
            exact hbound i
        · rw [if_neg h2]
          exact hbound i
  · have h := (cycleLog_form 50).1
    rw [h]
    rw [show cycleHist 51 = (List.range 50).map (fun k => toString (k + 2)) from by decide]

/-- C5 witness: the bound-preservation clause applied to the empty log. -/
theorem history_cap_fifty_witness :
    optHistLen ((update_order_completion_tracking "w" (trOrder "TRUE" "TRUE" "TRUE") none
      (fun _ => none)) "T") ≤ 50 :=
  history_cap_fifty.2.1 "w" (trOrder "TRUE" "TRUE" "TRUE") none (fun _ => none)
    (fun i => by simp [optHistLen]) "T"

/-! ## C6 support lemmas -/

theorem dashStep_log_eq (today : ℤ) (st : DashState) (o : Order) :
    (dashStep today st o).log =
      (dashReconcile st.log o (is_order_marked_complete o)).1 := by
  unfold dashStep
  cases hsd : orderStageDate o <;> simp only [hsd] <;>
    (split <;> first | rfl | (split <;> rfl))

/-- The reconciliation never touches an absent or stored-incomplete entry,
and any change it makes replaces a stored-complete entry by the same entry
demoted. -/
theorem dashReconcile_cases (log : Log) (o : Order) (b : Bool) (i : String) :
    (dashReconcile log o b).1 i = log i ∨
    ∃ e, log i = some e ∧ e.is_complete = true ∧
      (dashReconcile log o b).1 i =
        some { e with is_complete := false, completed_at := none } := by
  unfold dashReconcile
  cases hid : get_order_identifier o none with
  | none => simp only [hid]; exact Or.inl trivial
  | some id =>
    simp only [hid]
    cases he : log id with
    | none => simp only [he]; exact Or.inl trivial
    | some e =>
      simp only [he]
      by_cases hii : i = id
      · subst hii
        by_cases h1 : (!b && e.is_complete) = true
        · rw [if_pos h1]
          refine Or.inr ⟨e, he, ?_, by simp [logSet]⟩
          cases hec : e.is_complete
          · rw [hec, Bool.and_false] at h1; exact absurd h1 (by simp)
          · rfl
        · rw [if_neg h1]
          by_cases h2 : (b && e.is_complete && truthy e.completed_at) = true
          · rw [if_pos h2]
            cases hcd : completion_date_from_entry e with
            | some day => exact Or.inl rfl
            | none =>
              refine Or.inr ⟨e, he, ?_, by simp [logSet]⟩
              cases hec : e.is_complete
              · rw [hec] at h2; simp at h2
              · rfl
          · rw [if_neg h2]
            exact Or.inl rfl
      · by_cases h1 : (!b && e.is_complete) = true
        · rw [if_pos h1]
          exact Or.inl (by simp [logSet, hii])
        · rw [if_neg h1]
          by_cases h2 : (b && e.is_complete && truthy e.completed_at) = true
          · rw [if_pos h2]
            cases hcd : completion_date_from_entry e with
            | some day => exact Or.inl rfl
            | none => exact Or.inl (by simp [logSet, hii])
          · rw [if_neg h2]
            exact Or.inl rfl

/-- The reconciliation demotes a stale stored-complete entry of an
incomplete order. -/
theorem dashReconcile_demotes (log : Log) (o : Order) (i : String) (e : CompletionEntry)
    (hid : get_order_identifier o none = some i) (he : log i = some e)
    (hec : e.is_complete = true) :
    (dashReconcile log o false).1 i =
      some { e with is_complete := false, completed_at := none } := by
  unfold dashReconcile
  simp only [hid, he, hec, Bool.not_false, Bool.true_and, if_true]
  simp [logSet]

theorem dashFold_false_stable (today : ℤ) (orders : List Order) (st : DashState)
    (i : String) (e : CompletionEntry) (he : st.log i = some e)
    (hec : e.is_complete = false) :
    (orders.foldl (dashStep today) st).log i = some e := by
  induction orders generalizing st with
  | nil => exact he
  | cons o rest ih =>
    rw [List.foldl_cons]
    apply ih
    rw [dashStep_log_eq]
    rcases dashReconcile_cases st.log o (is_order_marked_complete o) i with h | ⟨e', he', hec', _⟩
    · rw [h, he]
    · rw [he] at he'
      have : e = e' := Option.some_inj.mp he'
      rw [← this] at hec'
      rw [hec] at hec'
      exact absurd hec' (by simp)

theorem dashFold_cases (today : ℤ) (orders : List Order) (st : DashState) (i : String) :
    (orders.foldl (dashStep today) st).log i = st.log i ∨
    ∃ e, st.log i = some e ∧ e.is_complete = true ∧
      (orders.foldl (dashStep today) st).log i =
        some { e with is_complete := false, completed_at := none } := by
  induction orders generalizing st with
  | nil => exact Or.inl rfl
  | cons o rest ih =>
    rw [List.foldl_cons]
    rcases dashReconcile_cases st.log o (is_order_marked_complete o) i with h | ⟨e, he, hec, hch⟩
    · rcases ih (dashStep today st o) with h2 | ⟨e, he2, hec2, hch2⟩
      · left
        rw [h2, dashStep_log_eq, h]
      · rw [dashStep_log_eq, h] at he2
        exact Or.inr ⟨e, he2, hec2, hch2⟩
    · refine Or.inr ⟨e, he, hec, ?_⟩
      have hstep : (dashStep today st o).log i =
          some { e with is_complete := false, completed_at := none } := by
        rw [dashStep_log_eq]
        exact hch
      exact dashFold_false_stable today rest _ i _ hstep rfl

theorem dashFold_demotes (today : ℤ) (orders : List Order) (st : DashState)
    (o : Order) (i : String) (e : CompletionEntry)
    (ho : o ∈ orders) (hid : get_order_identifier o none = some i)
    (he : st.log i = some e) (hec : e.is_complete = true)
    (hinc : is_order_marked_complete o = false) :
    (orders.foldl (dashStep today) st).log i =
      some { e with is_complete := false, completed_at := none } := by
  induction orders generalizing st with
  | nil => cases ho
  | cons o' rest ih =>
    rw [List.foldl_cons]
    rcases List.mem_cons.mp ho with heq | hmem
    · subst heq
      have hstep : (dashStep today st o).log i =
          some { e with is_complete := false, completed_at := none } := by
        rw [dashStep_log_eq, hinc]
        exact dashReconcile_demotes st.log o i e hid he hec
      exact dashFold_false_stable today rest _ i _ hstep rfl
    · rcases dashReconcile_cases st.log o' (is_order_marked_complete o') i with h | ⟨e2, he2, hec2, hch⟩
      · exact ih (dashStep today st o') hmem (by rw [dashStep_log_eq, h]; exact he)
      · have he2e : e2 = e := by
          rw [he] at he2
          exact (Option.some_inj.mp he2).symm
        subst he2e
        have hstep : (dashStep today st o').log i =
            some { e2 with is_complete := false, completed_at := none } := by
          rw [dashStep_log_eq]
          exact hch
        exact dashFold_false_stable today rest _ i _ hstep rfl

/-- C6 (amended).  The dashboard pass never appends to any history (all
histories are exactly preserved) and reconciles only in the demoting
direction: stored-incomplete entries are never modified (even when the
order's live flags are all true), while a stored-complete entry whose
order's live flags are no longer all true is corrected to
`is_complete = false`, `completed_at = null` with its history kept; every
change the pass makes to the log is such a demotion. -/
theorem dashboard_reconciliation_demotes_only (today : ℤ) (orders : List Order) (log : Log) :
    (∀ i, (compute_dashboard_order_stats today orders log).log i = log i ∨
      ∃ e, log i = some e ∧ e.is_complete = true ∧
        (compute_dashboard_order_stats today orders log).log i =
          some { e with is_complete := false, completed_at := none }) ∧
    (∀ i, ((compute_dashboard_order_stats today orders log).log i).map (·.history) =
      (log i).map (·.history)) ∧
    (∀ i e, log i = some e → e.is_complete = false →
      (compute_dashboard_order_stats today orders log).log i = some e) ∧
    (∀ o ∈ orders, ∀ i e, get_order_identifier o none = some i → log i = some e →
      e.is_complete = true → is_order_marked_complete o = false →
      (compute_dashboard_order_stats today orders log).log i =
        some { e with is_complete := false, completed_at := none }) := by
  refine ⟨fun i => dashFold_cases today orders _ i, fun i => ?_,
    fun i e he hec => dashFold_false_stable today orders _ i e he hec,
    fun o ho i e hid he hec hinc => dashFold_demotes today orders _ o i e ho hid he hec hinc⟩
  rcases dashFold_cases today orders
    { log := log, completed := 0, pending := 0, produce_only := 0, ready_total := 0,
      shipped_total := 0, daily_completed := 0,
      dayCounts := (dashWindow today).map (fun d => (d, 0)),
      stageDayCounts := (dashWindow today).map (fun d => (d, (0, 0, 0))) } i with h | ⟨e, he, _, hch⟩
  · rw [show (compute_dashboard_order_stats today orders log).log i = log i from h]
  · rw [show (compute_dashboard_order_stats today orders log).log i =
      some { e with is_complete := false, completed_at := none } from hch]
    rw [show (log i : Option CompletionEntry) = some e from he]
    rfl

/-- C6 counterexample.  The pass does not self-correct in the promoting
direction: an order whose three live flags are all true but whose log
entry has `is_complete = false` keeps that stale `false` entry, so after
the pass `is_complete` does not equal the AND of the live flags. -/
theorem dashboard_stale_false_not_promoted :
    ((compute_dashboard_order_stats 0 [trOrder "TRUE" "TRUE" "TRUE"]
        (logSet (fun _ => none) "T" ⟨false, none, []⟩)).log) "T" =
      some ⟨false, none, []⟩ ∧
    is_order_marked_complete (trOrder "TRUE" "TRUE" "TRUE") = true := by
  exact ⟨by decide, by decide⟩

/-- C6 witness: the demotion clause applied to one stale stored-complete
entry. -/
theorem dashboard_reconciliation_demotes_only_witness :
    (compute_dashboard_order_stats 0 [trOrder "TRUE" "FALSE" "TRUE"]
        (logSet (fun _ => none) "T" ⟨true, some "ts", ["ts"]⟩)).log "T" =
      some ⟨false, none, ["ts"]⟩ := by
  have h := (dashboard_reconciliation_demotes_only 0 [trOrder "TRUE" "FALSE" "TRUE"]
    (logSet (fun _ => none) "T" ⟨true, some "ts", ["ts"]⟩)).2.2.2
      (trOrder "TRUE" "FALSE" "TRUE") (by simp) "T" ⟨true, some "ts", ["ts"]⟩
      (by decide) (by simp [logSet]) rfl (by decide)
  exact h

/-! ## C2 support -/

theorem preservedVal_backend (v : String) (x : Option String) :
    preservedVal (some v) x = some v := rfl

theorem preserve_produce_group (R C : Order) (v : String)
    (hv : preservedVal C.kesildi C.produce = some v) :
    (preserve_editable_fields R C).produce = some v ∧
    (preserve_editable_fields R C).kesildi = some v := by
  rw [preserve_eq]
  constructor <;> simp [updF, hv]

theorem preserve_note_group (R C : Order) (w : String)
    (hw : preservedVal C.importantnote C.note = some w) :
    (preserve_editable_fields R C).note = some w ∧
    (preserve_editable_fields R C).importantnote = some w := by
  rw [preserve_eq]
  constructor <;> simp [updF, hw]

theorem preserve_has_groups (R C : Order) (v w : String)
    (hv : preservedVal C.kesildi C.produce = some v)
    (hw : preservedVal C.importantnote C.note = some w) :
    preservedVal (preserve_editable_fields R C).kesildi
      (preserve_editable_fields R C).produce = some v ∧
    preservedVal (preserve_editable_fields R C).importantnote
      (preserve_editable_fields R C).note = some w := by
  rw [(preserve_produce_group R C v hv).2, (preserve_note_group R C w hw).2]
  exact ⟨rfl, rfl⟩

theorem lookupBatchLast_single (R : Order) (tid : String) (newO : Order)
    (h : lookupBatchLast [R] tid = some newO) :
    newO = R ∧ fetchedKey R = some tid := by
  unfold lookupBatchLast at h
  by_cases hk : (fetchedKey R == some tid) = true
  · refine ⟨?_, eq_of_beq hk⟩
    rw [List.filter_cons, hk] at h
    simp only [List.filter_nil] at h
    exact (Option.some_inj.mp h).symm
  · rw [List.filter_cons] at h
    rw [Bool.eq_false_iff.mpr hk] at h
    simp at h

theorem chgF_self {α : Type} [DecidableEq α] (a : Option α) : chgF a a = false := by
  cases a <;> simp [chgF]

theorem nonEditableChanged_preserve (R C : Order) :
    nonEditableChanged R (preserve_editable_fields R C) = false := by
  rw [preserve_eq]
  simp [nonEditableChanged, chgF_self]

theorem lookup_replaceFirstByKey (l : List Order) (t : String) (ρ : Order)
    (hρ : cachedKey ρ = some t) (hex : (lookupByCachedKey l t).isSome = true) :
    lookupByCachedKey (replaceFirstByKey l t ρ) t = some ρ := by
  induction l with
  | nil => simp [lookupByCachedKey] at hex
  | cons x rest ih =>
    unfold replaceFirstByKey
    by_cases hx : (cachedKey x == some t) = true
    · rw [if_pos hx]
      unfold lookupByCachedKey
      simp only [List.find?_cons, show (cachedKey ρ == some t) = true from by
        rw [hρ]; exact beq_self_eq_true _]
    · rw [if_neg hx]
      unfold lookupByCachedKey at hex ⊢
      simp only [List.find?_cons, Bool.eq_false_iff.mpr hx] at hex ⊢
      exact ih hex

/-- The one-relevant-row invariant of the incremental fold: once the cached
row for `t` is either the original or its preserved replacement, every
further step keeps it so. -/
theorem incr_fold_row (R C : Order) (t : String)
    (hfk : fetchedKey R = some t) (hck : cachedKey R = some t)
    (ids : List String) (st : List Order × Bool)
    (h : lookupByCachedKey st.1 t = some C ∨
      lookupByCachedKey st.1 t = some (preserve_editable_fields R C)) :
    lookupByCachedKey ((ids.foldl (incrStep [R]) st).1) t = some C ∨
    lookupByCachedKey ((ids.foldl (incrStep [R]) st).1) t =
      some (preserve_editable_fields R C) := by
  induction ids generalizing st with
  | nil => exact h
  | cons tid rest ih =>
    rw [List.foldl_cons]
    apply ih
    unfold incrStep
    cases hb : lookupBatchLast [R] tid with
    | none => simp only [hb]; exact h
    | some newO =>
      obtain ⟨hnew, hkey⟩ := lookupBatchLast_single R tid newO hb
      have htid : tid = t := by
        rw [hfk] at hkey
        exact (Option.some_inj.mp hkey).symm
      rw [hnew, htid]
      rcases h with h | h
      · have h2 : st.1.find? (fun o => cachedKey o == some t) = some C := h
        simp only [h2]
        by_cases hch : nonEditableChanged R C = true
        · rw [if_pos hch]
          right
          exact lookup_replaceFirstByKey st.1 t (preserve_editable_fields R C)
            (by rw [cachedKey_preserve]; exact hck)
            (by rw [show lookupByCachedKey st.1 t = some C from h]; rfl)
        · rw [if_neg hch]
          exact Or.inl h
      · have h2 : st.1.find? (fun o => cachedKey o == some t) =
            some (preserve_editable_fields R C) := h
        simp only [h2, nonEditableChanged_preserve, Bool.false_eq_true, if_false]
        exact Or.inr h

theorem mem_foldl_dedup (l : List String) (acc : List String) (a : String) :
    a ∈ l.foldl (fun acc t => if acc.contains t then acc else acc ++ [t]) acc ↔
      a ∈ acc ∨ a ∈ l := by
  induction l generalizing acc with
  | nil => simp
  | cons x rest ih =>
    rw [List.foldl_cons]
    by_cases hx : acc.contains x = true
    · rw [if_pos hx]
      rw [ih]
      have hmem : x ∈ acc := List.elem_iff.mp hx
      constructor
      · rintro (h | h)
        · exact Or.inl h
        · exact Or.inr (List.mem_cons_of_mem _ h)
      · rintro (h | h)
        · exact Or.inl h
        · rcases List.mem_cons.mp h with rfl | h
          · exact Or.inl hmem
          · exact Or.inr h
    · rw [if_neg hx]
      rw [ih]
      simp [List.mem_append, List.mem_cons]
      tauto
  
theorem mem_dedupKeys (l : List String) (a : String) : a ∈ dedupKeys l ↔ a ∈ l := by
  unfold dedupKeys
  rw [mem_foldl_dedup]
  simp

theorem incremental_some (batch cache : List Order) :
    incremental_update_cache (some batch) cache =
      (((dedupKeys (cache.filterMap cachedKey)).foldl (incrStep batch)
          (cache ++ ((dedupKeys (batch.filterMap fetchedKey)).filter
            (fun t => !((dedupKeys (cache.filterMap cachedKey)).contains t))).filterMap
              (lookupBatchLast batch), false)).1,
        !((dedupKeys (batch.filterMap fetchedKey)).filter
            (fun t => !((dedupKeys (cache.filterMap cachedKey)).contains t))).isEmpty ||
          ((dedupKeys (cache.filterMap cachedKey)).foldl (incrStep batch)
            (cache ++ ((dedupKeys (batch.filterMap fetchedKey)).filter
              (fun t => !((dedupKeys (cache.filterMap cachedKey)).contains t))).filterMap
                (lookupBatchLast batch), false)).2) := rfl

theorem sync_some (now : ℤ) (batch cache : List Order) :
    sync_latest_orders now (some batch) cache =
      ((syncLatest20 now batch).filterMap (fun o => match cachedKey o with
        | none => none
        | some t => some (match lookupByCachedKey cache t with
          | some m => preserve_editable_fields o m
          | none => o))) ++
      cache.filter (fun o => match cachedKey o with
        | some t => !((syncProcessedIds now batch).contains t)
        | none => false) := rfl

/-- C2 (amended).  If the cached row for identifier `t` carries preserved
editable values — the backend-alias flag (`Kesildi`) when that key is
present, else the frontend flag (`Produce`); same for the note pair — then
after any of the three merge modes runs on a single fetched row with that
identifier, the resulting row for `t` still carries exactly those
preserved values; with `v = "TRUE"`, `w = "hello"` this is the claim's
scenario, and for arbitrary `v` it says a merge never resets a preserved
flag value. -/
theorem edit_preservation_preserved_value (now : ℤ) (cache : List Order) (R C : Order)
    (t v w : String)
    (hfk : fetchedKey R = some t) (hck : cachedKey R = some t)
    (hC : lookupByCachedKey cache t = some C)
    (hv : preservedVal C.kesildi C.produce = some v)
    (hw : preservedVal C.importantnote C.note = some w) :
    (∃ ρ, lookupByCachedKey (update_cache (some [R]) cache) t = some ρ ∧
      preservedVal ρ.kesildi ρ.produce = some v ∧
      preservedVal ρ.importantnote ρ.note = some w) ∧
    (∃ ρ, lookupByCachedKey (incremental_update_cache (some [R]) cache).1 t = some ρ ∧
      preservedVal ρ.kesildi ρ.produce = some v ∧
      preservedVal ρ.importantnote ρ.note = some w) ∧
    (∃ ρ, lookupByCachedKey (sync_latest_orders now (some [R]) cache) t = some ρ ∧
      preservedVal ρ.kesildi ρ.produce = some v ∧
      preservedVal ρ.importantnote ρ.note = some w) := by
  have hpres := preserve_has_groups R C v w hv hw
  have hheadkey : (cachedKey (preserve_editable_fields R C) == some t) = true := by
    rw [cachedKey_preserve, hck]
    exact beq_self_eq_true _
  refine ⟨⟨preserve_editable_fields R C, ?_, hpres.1, hpres.2⟩, ?_, ?_⟩
  · rw [update_cache_some]
    rw [fullReplacePass_cons_new cache [] [] hfk rfl]
    simp only [hC, fullReplacePass_nil]
    unfold lookupByCachedKey
    simp only [List.cons_append, List.nil_append, List.find?_cons, hheadkey]
  · -- incremental mode
    have hC2 : cache.find? (fun o => cachedKey o == some t) = some C := hC
    have hpC0 := List.find?_some hC2
    have hpC : (cachedKey C == some t) = true := hpC0
    have hmemC : C ∈ cache ∧ cachedKey C = some t :=
      ⟨List.mem_of_find?_eq_some hC2, eq_of_beq hpC⟩
    have hmemD : t ∈ dedupKeys (cache.filterMap cachedKey) :=
      (mem_dedupKeys _ _).mpr (List.mem_filterMap.mpr ⟨C, hmemC.1, hmemC.2⟩)
    rw [incremental_some]
    rw [show ([R].filterMap fetchedKey) = [t] from by simp [List.filterMap_cons, hfk]]
    rw [show dedupKeys [t] = [t] from rfl]
    rw [show ([t].filter (fun s => !((dedupKeys (cache.filterMap cachedKey)).contains s)))
        = [] from by simp [List.filter_cons, hmemD]]
    simp only [List.filterMap_nil, List.append_nil]
    rcases incr_fold_row R C t hfk hck (dedupKeys (cache.filterMap cachedKey))
      (cache, false) (Or.inl hC) with h | h
    · exact ⟨C, h, hv, hw⟩
    · exact ⟨preserve_editable_fields R C, h, hpres.1, hpres.2⟩
  · -- latest-N quick sync
    rw [sync_some]
    rw [show syncLatest20 now [R] = [R] from rfl]
    rw [show ([R].filterMap (fun o => match cachedKey o with
      | none => none
      | some t => some (match lookupByCachedKey cache t with
        | some m => preserve_editable_fields o m
        | none => o))) = [preserve_editable_fields R C] from by
        simp [List.filterMap_cons, hck, hC]]
    refine ⟨preserve_editable_fields R C, ?_, hpres.1, hpres.2⟩
    unfold lookupByCachedKey
    simp only [List.cons_append, List.nil_append, List.find?_cons, hheadkey]

/-- C2 counterexample.  The preserver prefers the backend alias: a cached
row with `Produce="TRUE"` but `Kesildi="FALSE"` and `Note="hello"` loses
its true Produce flag in a full-replace merge with a default-flag fetched
row of the same identifier — the merged row has `Produce="FALSE"`. -/
theorem produce_reset_by_backend_alias :
    update_cache (some [rowFetchedT1]) [rowCachedT1] = [rowMergedT1] ∧
    rowMergedT1.produce = some "FALSE" ∧ rowCachedT1.produce = some "TRUE" ∧
    rowMergedT1.note = some "hello" := by
  refine ⟨by decide, rfl, rfl, rfl⟩

/-- C2 witness: the preserved-value theorem applied to a concrete cache
and fetched row. -/
theorem edit_preservation_preserved_value_witness :
    ∃ ρ, lookupByCachedKey (update_cache (some [rowFetchedW]) [rowCachedW]) "W" = some ρ ∧
      preservedVal ρ.kesildi ρ.produce = some "TRUE" ∧
      preservedVal ρ.importantnote ρ.note = some "hello" :=
  (edit_preservation_preserved_value 0 [rowCachedW] rowFetchedW rowCachedW
    "W" "TRUE" "hello" (by decide) (by decide) (by decide) rfl rfl).1

/-! ## C9: latest-N quick sync -/

theorem daysFromCivil_ge (y m d : ℤ) (hy : 1 ≤ y) (hm : 1 ≤ m) (hm2 : m ≤ 12)
    (hd : 1 ≤ d) : daysFromCivil 1 1 1 ≤ daysFromCivil y m d := by
  have e400 : ∀ a : ℤ, a.fdiv 400 = a / 400 := fun a => Int.fdiv_eq_ediv a (by norm_num)
  have e5 : ∀ a : ℤ, a.fdiv 5 = a / 5 := fun a => Int.fdiv_eq_ediv a (by norm_num)
  have e4 : ∀ a : ℤ, a.fdiv 4 = a / 4 := fun a => Int.fdiv_eq_ediv a (by norm_num)
  have e100 : ∀ a : ℤ, a.fdiv 100 = a / 100 := fun a => Int.fdiv_eq_ediv a (by norm_num)
  rw [show daysFromCivil 1 1 1 = -719162 from by decide]
  simp only [daysFromCivil, e400, e5, e4, e100]
  split <;> split <;> omega

theorem dateSeconds_ge_min (y m d : ℕ) (hv : validCalDate y m d = true) :
    dtMinSec ≤ dateSeconds y m d := by
  unfold validCalDate at hv
  simp only [Bool.and_eq_true, decide_eq_true_eq] at hv
  obtain ⟨⟨⟨⟨⟨h1, h2⟩, h3⟩, h4⟩, h5⟩, h6⟩ := hv
  unfold dtMinSec dateSeconds
  simp only [Nat.cast_one]
  have h := daysFromCivil_ge y m d (by exact_mod_cast h1)
    (by exact_mod_cast h3) (by exact_mod_cast h4) (by exact_mod_cast h5)
  omega

theorem strptime_mdY_valid {s : String} {y m d : ℕ}
    (h : strptime_mdY s = some (y, m, d)) : validCalDate y m d = true := by
  unfold strptime_mdY at h
  split at h
  · rename_i x mcs dcs ycs heq
    cases h1 : numField 2 mcs with
    | none => rw [h1] at h; simp at h
    | some v1 =>
      rw [h1] at h
      rw [Option.bind_eq_bind, Option.some_bind] at h
      cases h2 : numField 2 dcs with
      | none => rw [h2] at h; simp at h
      | some v2 =>
        rw [h2] at h
        rw [Option.some_bind] at h
        cases h3 : yearField ycs with
        | none => rw [h3] at h; simp at h
        | some v3 =>
          rw [h3] at h
          rw [Option.some_bind] at h
          split at h
          · rename_i hval
            have heq := Option.some_inj.mp h
            have hy : v3 = y := congrArg Prod.fst heq
            have hm : v1 = m := congrArg (fun p => p.2.1) heq
            have hd : v2 = d := congrArg (fun p => p.2.2) heq
            rw [hy, hm, hd] at hval
            exact hval
          · exact absurd h (by simp)
  · exact absurd h (by simp)

theorem strptime_dmY_valid {s : String} {y m d : ℕ}
    (h : strptime_dmY s = some (y, m, d)) : validCalDate y m d = true := by
  unfold strptime_dmY at h
  split at h
  · rename_i x dcs mcs ycs heq
    cases h1 : numField 2 dcs with
    | none => rw [h1] at h; simp at h
    | some v1 =>
      rw [h1] at h
      rw [Option.bind_eq_bind, Option.some_bind] at h
      cases h2 : numField 2 mcs with
      | none => rw [h2] at h; simp at h
      | some v2 =>
        rw [h2] at h
        rw [Option.some_bind] at h
        cases h3 : yearField ycs with
        | none => rw [h3] at h; simp at h
        | some v3 =>
          rw [h3] at h
          rw [Option.some_bind] at h
          split at h
          · rename_i hval
            have heq := Option.some_inj.mp h
            have hy : v3 = y := congrArg Prod.fst heq
            have hm : v2 = m := congrArg (fun p => p.2.1) heq
            have hd : v1 = d := congrArg (fun p => p.2.2) heq
            rw [hy, hm, hd] at hval
            exact hval
          · exact absurd h (by simp)
  · exact absurd h (by simp)


theorem get_order_date_ge (now : ℤ) (hnow : dtMinSec ≤ now) (o : Order) :
    dtMinSec ≤ get_order_date now o := by
  cases hdf : o.dataF with
  | none =>
    unfold get_order_date
    simp only [hdf]
    exact le_refl _
  | some raw =>
    unfold get_order_date
    simp only [hdf]
    by_cases hraw : raw = ""
    · rw [if_pos hraw]
    · rw [if_neg hraw]
      by_cases hsl : (pyStrip raw).data.contains '/' = true
      · rw [hsl, if_pos rfl]
        cases hp : strptime_mdY (pyStrip raw) with
        | none => exact le_refl _
        | some p =>
          exact dateSeconds_ge_min p.1 p.2.1 p.2.2 (strptime_mdY_valid (by rw [hp]))
      · rw [Bool.eq_false_iff.mpr hsl]
        simp only [Bool.false_eq_true, if_false]
        by_cases hdot : (pyStrip raw).data.contains '.' = true
        · rw [hdot, if_pos rfl]
          cases hp : strptime_dmY (pyStrip raw) with
          | none => exact le_refl _
          | some p =>
            exact dateSeconds_ge_min p.1 p.2.1 p.2.2 (strptime_dmY_valid (by rw [hp]))
        · rw [Bool.eq_false_iff.mpr hdot]
          simp only [Bool.false_eq_true, if_false]
          exact hnow

/-- C9 (amended).  The quick sync stably sorts the fetched rows descending
by `get_order_date`; a missing/empty `Data` value and a
separator-carrying but unparsable one evaluate to `datetime.min`, the
global minimum of the ordering, while a non-empty value with neither `/`
nor `.` evaluates to `datetime.now()` (so such "unparsable" rows sort as
the newest among past-dated rows, not the oldest); the first 20 sorted
rows are merged through the preserver against matching cached entries,
and every cached row whose identifier is not among the processed subset
is retained. -/
theorem latest_n_quick_sync (now : ℤ) (batch cache : List Order) :
    ((syncSorted now batch).Pairwise
      (fun a b => get_order_date now b ≤ get_order_date now a) ∧
     (syncSorted now batch).Perm batch) ∧
    ((∀ o : Order, o.dataF = none → get_order_date now o = dtMinSec) ∧
     (∀ o : Order, ∀ s, o.dataF = some s → s ≠ "" →
       (pyStrip s).data.contains '/' = true → strptime_mdY (pyStrip s) = none →
       get_order_date now o = dtMinSec) ∧
     (∀ o : Order, ∀ s, o.dataF = some s → s ≠ "" →
       (pyStrip s).data.contains '/' = false → (pyStrip s).data.contains '.' = false →
       get_order_date now o = now) ∧
     (dtMinSec ≤ now → ∀ o, dtMinSec ≤ get_order_date now o)) ∧
    (∀ c ∈ cache, ∀ t, cachedKey c = some t →
      (syncProcessedIds now batch).contains t = false →
      c ∈ sync_latest_orders now (some batch) cache) ∧
    (∀ r ∈ syncLatest20 now batch, ∀ t m, cachedKey r = some t →
      lookupByCachedKey cache t = some m →
      preserve_editable_fields r m ∈ sync_latest_orders now (some batch) cache) := by
  haveI htr : IsTrans Order (fun a b => get_order_date now b ≤ get_order_date now a) :=
    ⟨fun a b c hab hbc => le_trans hbc hab⟩
  haveI hto : IsTotal Order (fun a b => get_order_date now b ≤ get_order_date now a) :=
    ⟨fun a b => (le_total (get_order_date now b) (get_order_date now a))⟩
  refine ⟨⟨List.sorted_insertionSort _ batch, List.perm_insertionSort _ batch⟩,
    ⟨?_, ?_, ?_, get_order_date_ge now⟩, ?_, ?_⟩
  · intro o h
    unfold get_order_date
    simp only [h]
  · intro o s hdf hne hsl hparse
    unfold get_order_date
    simp only [hdf, if_neg hne, hsl, if_true, hparse]
  · intro o s hdf hne hsl hdot
    unfold get_order_date
    simp only [hdf, if_neg hne, hsl, hdot, Bool.false_eq_true, if_false]
  · intro c hc t hct hproc
    rw [sync_some]
    apply List.mem_append_right
    apply List.mem_filter.mpr
    refine ⟨hc, ?_⟩
    simp only [hct, hproc, Bool.not_false]
  · intro r hr t m hct hm
    rw [sync_some]
    apply List.mem_append_left
    apply List.mem_filterMap.mpr
    refine ⟨r, hr, ?_⟩
    simp only [hct, hm]

/-- C9 counterexample.  `"hello"` parses under no known format, yet it does
not sort as the oldest: it evaluates to `datetime.now()` and outsorts a
genuinely dated older row, so the quick sync puts the gibberish-dated row
first. -/
theorem unparsable_date_sorts_newest :
    sync_latest_orders (dateSeconds 2025 10 12) (some [rowOldDated, rowGibberishDated]) [] =
      [rowGibberishDated, rowOldDated] ∧
    get_order_date (dateSeconds 2025 10 12) rowGibberishDated = dateSeconds 2025 10 12 ∧
    get_order_date (dateSeconds 2025 10 12) rowOldDated = dateSeconds 2020 1 1 ∧
    dateSeconds 2020 1 1 < dateSeconds 2025 10 12 := by
  refine ⟨by decide, by decide, by decide, by decide⟩

/-- C9 witness: retention and preservation clauses at a concrete state. -/
theorem latest_n_quick_sync_witness :
    rowCachedW ∈ sync_latest_orders 0 (some []) [rowCachedW] ∧
    preserve_editable_fields rowFetchedW rowCachedW ∈
      sync_latest_orders 0 (some [rowFetchedW]) [rowCachedW] := by
  constructor
  · exact (latest_n_quick_sync 0 [] [rowCachedW]).2.2.1 rowCachedW (by simp) "W"
      (by decide) (by decide)
  · exact (latest_n_quick_sync 0 [rowFetchedW] [rowCachedW]).2.2.2 rowFetchedW
      (by decide) "W" rowCachedW (by decide) (by decide)

/-! ## C7: unified view ordering -/

theorem charListLt_nil_right (a : List Char) : charListLt a [] = false := by
  cases a <;> rfl

theorem charListLt_irrefl : ∀ a : List Char, charListLt a a = false := by
  intro a
  induction a with
  | nil => rfl
  | cons x rest ih =>
    unfold charListLt
    rw [ih]
    simp

theorem charListLt_asymm : ∀ a b : List Char,
    charListLt a b = true → charListLt b a = false := by
  intro a
  induction a with
  | nil =>
    intro b h
    cases b with
    | nil => simp [charListLt] at h
    | cons y bs => exact charListLt_nil_right _
  | cons x as ih =>
    intro b h
    cases b with
    | nil => rw [charListLt_nil_right] at h; exact absurd h (by simp)
    | cons y bs =>
      unfold charListLt at h ⊢
      simp only [Bool.or_eq_true, Bool.and_eq_true, decide_eq_true_eq, beq_iff_eq] at h
      rcases h with h | ⟨hxy, h⟩
      · simp only [Bool.or_eq_false_iff, Bool.and_eq_false_iff]
        constructor
        · simp only [decide_eq_false_iff_not]
          omega
        · left
          simp only [beq_eq_false_iff_ne, ne_eq]
          omega
      · simp only [Bool.or_eq_false_iff, Bool.and_eq_false_iff]
        constructor
        · simp only [decide_eq_false_iff_not]
          omega
        · right
          exact ih bs h
  
theorem charListLt_connex : ∀ a b : List Char,
    charListLt a b = false → charListLt b a = false → a = b := by
  intro a
  induction a with
  | nil =>
    intro b h1 h2
    cases b with
    | nil => rfl
    | cons y bs => exact absurd h1 (by simp [charListLt])
  | cons x as ih =>
    intro b h1 h2
    cases b with
    | nil => exact absurd h2 (by simp [charListLt])
    | cons y bs =>
      unfold charListLt at h1 h2
      simp only [Bool.or_eq_false_iff, Bool.and_eq_false_iff, decide_eq_false_iff_not,
        beq_eq_false_iff_ne, ne_eq] at h1 h2
      have hxy : x.toNat = y.toNat := by omega
      have heads : x = y := Char.ext (UInt32.ext hxy)
      subst heads
      have htails : as = bs := by
        apply ih
        · rcases h1.2 with h | h
          · omega
          · exact h
        · rcases h2.2 with h | h
          · omega
          · exact h
      rw [htails]

theorem charListLt_trans : ∀ a b c : List Char,
    charListLt a b = true → charListLt b c = true → charListLt a c = true := by
  intro a
  induction a with
  | nil =>
    intro b c hab hbc
    cases c with
    | nil => rw [charListLt_nil_right] at hbc; exact absurd hbc (by simp)
    | cons z cs => rfl
  | cons x as ih =>
    intro b c hab hbc
    cases b with
    | nil => rw [charListLt_nil_right] at hab; exact absurd hab (by simp)
    | cons y bs =>
      cases c with
      | nil => rw [charListLt_nil_right] at hbc; exact absurd hbc (by simp)
      | cons z cs =>
        unfold charListLt at hab hbc ⊢
        simp only [Bool.or_eq_true, Bool.and_eq_true, decide_eq_true_eq, beq_iff_eq] at hab hbc ⊢
        rcases hab with h1 | ⟨he1, h1⟩
        · rcases hbc with h2 | ⟨he2, h2⟩
          · left; omega
          · left; omega
        · rcases hbc with h2 | ⟨he2, h2⟩
          · left; omega
          · right
            exact ⟨by omega, ih bs cs h1 h2⟩

theorem pyStrLe_refl (s : String) : pyStrLe s s = true := by
  unfold pyStrLe pyStrLt
  rw [charListLt_irrefl]
  rfl

theorem viewLe_total (a b : Order) : viewLe a b = true ∨ viewLe b a = true := by
  unfold viewLe pyStrLe pyStrLt
  cases h : charListLt (sortVal a).data (sortVal b).data
  · left; rfl
  · right
    rw [charListLt_asymm _ _ h]
    rfl

theorem viewLe_trans (a b c : Order) (hab : viewLe a b = true) (hbc : viewLe b c = true) :
    viewLe a c = true := by
  unfold viewLe pyStrLe pyStrLt at hab hbc ⊢
  rw [Bool.not_eq_true'] at hab hbc ⊢
  by_contra hac
  rw [Bool.not_eq_false] at hac
  cases hba : charListLt (sortVal b).data (sortVal a).data
  · have heq := charListLt_connex _ _ hab hba
    rw [heq] at hac
    rw [hac] at hbc
    exact absurd hbc (by simp)
  · have := charListLt_trans _ _ _ hba hac
    rw [this] at hbc
    exact absurd hbc (by simp)

/-- C7.  The unified view is sorted descending by `_sortKey` (string
comparison), is a permutation of the pre-sort list (manual payloads first,
then transformed cached orders), ties keep the pre-sort order, and in
particular a manual order with the same `_sortKey` as a synced order is
listed before it. -/
theorem unified_view_sorted_stable (nowIso : String) (cache manuals : List Order) :
    (transform_orders_for_frontend nowIso cache manuals).Pairwise
      (fun a b => viewLe a b = true) ∧
    (transform_orders_for_frontend nowIso cache manuals).Perm
      (manuals.map (manualView nowIso) ++ cache.map (viewOfCached nowIso)) ∧
    (∀ a b : Order,
      List.Sublist [a, b] (manuals.map (manualView nowIso) ++ cache.map (viewOfCached nowIso)) →
      viewLe a b = true →
      List.Sublist [a, b] (transform_orders_for_frontend nowIso cache manuals)) ∧
    (∀ M ∈ manuals.map (manualView nowIso), ∀ S ∈ cache.map (viewOfCached nowIso),
      sortVal M = sortVal S →
      List.Sublist [M, S] (transform_orders_for_frontend nowIso cache manuals)) := by
  haveI : IsTrans Order (fun a b => viewLe a b = true) := ⟨viewLe_trans⟩
  haveI : IsTotal Order (fun a b => viewLe a b = true) := ⟨viewLe_total⟩
  refine ⟨?_, List.perm_insertionSort _ _, ?_, ?_⟩
  · exact List.sorted_insertionSort _ _
  · intro a b hsub hle
    exact List.pair_sublist_insertionSort hle hsub
  · intro M hM S hS hsv
    apply List.pair_sublist_insertionSort
    · show viewLe M S = true
      unfold viewLe
      rw [hsv]
      exact pyStrLe_refl _
    · exact List.Sublist.append (List.singleton_sublist.mpr hM)
        (List.singleton_sublist.mpr hS)

/-- C7 witness: the manual-before-synced clause at the spec's concrete
scenario (`_sortKey = 2025-01-02T00:00:00` on both sides). -/
theorem unified_view_sorted_stable_witness :
    List.Sublist [manualView "NOW" manualM, viewOfCached "NOW" syncedS]
      (transform_orders_for_frontend "NOW" [syncedS] [manualM]) := by
  apply (unified_view_sorted_stable "NOW" [syncedS] [manualM]).2.2.2
  · simp
  · simp
  · decide

/-! ## C3: full-replace idempotence -/

theorem dedupBatch_nil (seen : List String) : dedupBatch [] seen = [] := rfl

theorem dedupBatch_cons_none {r : Order} (rest : List Order) (seen : List String)
    (hk : fetchedKey r = none) :
    dedupBatch (r :: rest) seen = dedupBatch rest seen := by
  conv_lhs => unfold dedupBatch
  simp only [hk]

theorem dedupBatch_cons_seen {r : Order} {t : String} (rest : List Order)
    (seen : List String) (hk : fetchedKey r = some t) (hs : seen.contains t = true) :
    dedupBatch (r :: rest) seen = dedupBatch rest seen := by
  conv_lhs => unfold dedupBatch
  simp only [hk, hs, if_true]

theorem dedupBatch_cons_new {r : Order} {t : String} (rest : List Order)
    (seen : List String) (hk : fetchedKey r = some t) (hs : seen.contains t = false) :
    dedupBatch (r :: rest) seen = r :: dedupBatch rest (t :: seen) := by
  conv_lhs => unfold dedupBatch
  simp only [hk, hs, Bool.false_eq_true, if_false]

theorem fullReplacePass_eq_map (cache : List Order) :
    ∀ (batch : List Order) (seen : List String),
    fullReplacePass cache batch seen = (dedupBatch batch seen).map (mergeRow cache) := by
  intro batch
  induction batch with
  | nil => intro seen; rfl
  | cons r rest ih =>
    intro seen
    cases hk : fetchedKey r with
    | none =>
      rw [fullReplacePass_cons_none cache rest seen hk, dedupBatch_cons_none rest seen hk]
      exact ih seen
    | some t =>
      cases hs : seen.contains t with
      | true =>
        rw [fullReplacePass_cons_seen cache rest seen hk hs,
          dedupBatch_cons_seen rest seen hk hs]
        exact ih seen
      | false =>
        rw [fullReplacePass_cons_new cache rest seen hk hs,
          dedupBatch_cons_new rest seen hk hs, List.map_cons, ih (t :: seen)]
        have hhead : mergeRow cache r = (match lookupByCachedKey cache t with
            | some m => preserve_editable_fields r m
            | none => r) := by
          unfold mergeRow
          simp only [hk]
        rw [hhead]

theorem dedupBatch_sublist : ∀ (batch : List Order) (seen : List String),
    List.Sublist (dedupBatch batch seen) batch := by
  intro batch
  induction batch with
  | nil => intro seen; exact List.Sublist.refl _
  | cons r rest ih =>
    intro seen
    cases hk : fetchedKey r with
    | none =>
      rw [dedupBatch_cons_none rest seen hk]
      exact List.Sublist.cons r (ih seen)
    | some t =>
      cases hs : seen.contains t with
      | true =>
        rw [dedupBatch_cons_seen rest seen hk hs]
        exact List.Sublist.cons r (ih seen)
      | false =>
        rw [dedupBatch_cons_new rest seen hk hs]
        exact List.Sublist.cons₂ r (ih (t :: seen))

theorem mem_dedupBatch_key : ∀ {batch : List Order} {seen : List String} {o : Order},
    o ∈ dedupBatch batch seen → ∃ t, fetchedKey o = some t ∧ seen.contains t = false := by
  intro batch
  induction batch with
  | nil =>
    intro seen o h
    rw [dedupBatch_nil] at h
    exact absurd h (List.not_mem_nil o)
  | cons r rest ih =>
    intro seen o h
    cases hk : fetchedKey r with
    | none =>
      rw [dedupBatch_cons_none rest seen hk] at h
      exact ih h
    | some t =>
      cases hs : seen.contains t with
      | true =>
        rw [dedupBatch_cons_seen rest seen hk hs] at h
        exact ih h
      | false =>
        rw [dedupBatch_cons_new rest seen hk hs] at h
        rcases List.mem_cons.mp h with h1 | h2
        · subst h1
          exact ⟨t, hk, hs⟩
        · rcases ih h2 with ⟨u, hu, hcu⟩
          refine ⟨u, hu, ?_⟩
          cases hsu : seen.contains u with
          | false => rfl
          | true =>
            exfalso
            have hcu2 : (t :: seen).contains u = true := by
              simp only [List.contains_cons, hsu, Bool.or_true]
            rw [hcu2] at hcu
            exact absurd hcu (by decide)

theorem dedupBatch_pairwise : ∀ (batch : List Order) (seen : List String),
    (dedupBatch batch seen).Pairwise (fun a b => fetchedKey a ≠ fetchedKey b) := by
  intro batch
  induction batch with
  | nil => intro seen; exact List.Pairwise.nil
  | cons r rest ih =>
    intro seen
    cases hk : fetchedKey r with
    | none =>
      rw [dedupBatch_cons_none rest seen hk]
      exact ih seen
    | some t =>
      cases hs : seen.contains t with
      | true =>
        rw [dedupBatch_cons_seen rest seen hk hs]
        exact ih seen
      | false =>
        rw [dedupBatch_cons_new rest seen hk hs]
        refine List.pairwise_cons.mpr ⟨?_, ih (t :: seen)⟩
        intro b hb
        rcases mem_dedupBatch_key hb with ⟨u, hu, hcu⟩
        rw [hk, hu]
        intro heq
        have htu : t = u := Option.some_inj.mp heq
        subst htu
        have hct : (t :: seen).contains t = true := by
          simp only [List.contains_cons, beq_self_eq_true, Bool.true_or]
        rw [hct] at hcu
        exact absurd hcu (by decide)

theorem rowCoherent_keys {o : Order} (h : rowCoherent o = true) :
    cachedKey o = fetchedKey o := by
  unfold rowCoherent at h
  simp only [Bool.and_eq_true, beq_iff_eq] at h
  exact h.1.1.1.1.symm

theorem rowCoherent_flags {o : Order} (h : rowCoherent o = true) :
    o.produce = o.kesildi ∧ o.ready = o.hazir ∧ o.shipped = o.gonderildi ∧
      o.note = o.importantnote := by
  unfold rowCoherent at h
  simp only [Bool.and_eq_true, beq_iff_eq] at h
  exact ⟨h.1.1.1.2, h.1.1.2, h.1.2, h.2⟩

theorem updF_preservedVal_self (b f : Option String) (h : f = b) :
    updF (preservedVal b f) f = f ∧ updF (preservedVal b f) b = b := by
  subst h
  cases f <;> exact ⟨rfl, rfl⟩

theorem updF_preservedVal_idem (b f mB mF : Option String) (h : f = b) :
    updF (preservedVal (updF (preservedVal mB mF) b) (updF (preservedVal mB mF) f)) f
        = updF (preservedVal mB mF) f ∧
    updF (preservedVal (updF (preservedVal mB mF) b) (updF (preservedVal mB mF) f)) b
        = updF (preservedVal mB mF) b := by
  subst h
  cases mB <;> cases mF <;> cases f <;> exact ⟨rfl, rfl⟩

theorem preserve_self {o : Order} (h : rowCoherent o = true) :
    preserve_editable_fields o o = o := by
  rcases rowCoherent_flags h with ⟨h1, h2, h3, h4⟩
  rw [preserve_eq,
    (updF_preservedVal_self o.kesildi o.produce h1).1,
    (updF_preservedVal_self o.kesildi o.produce h1).2,
    (updF_preservedVal_self o.hazir o.ready h2).1,
    (updF_preservedVal_self o.hazir o.ready h2).2,
    (updF_preservedVal_self o.gonderildi o.shipped h3).1,
    (updF_preservedVal_self o.gonderildi o.shipped h3).2,
    (updF_preservedVal_self o.importantnote o.note h4).1,
    (updF_preservedVal_self o.importantnote o.note h4).2]

theorem preserve_idem {o : Order} (h : rowCoherent o = true) (m : Order) :
    preserve_editable_fields o (preserve_editable_fields o m) =
      preserve_editable_fields o m := by
  rcases rowCoherent_flags h with ⟨h1, h2, h3, h4⟩
  rw [preserve_eq o m, preserve_eq]
  simp only [(updF_preservedVal_idem o.kesildi o.produce m.kesildi m.produce h1).1,
    (updF_preservedVal_idem o.kesildi o.produce m.kesildi m.produce h1).2,
    (updF_preservedVal_idem o.hazir o.ready m.hazir m.ready h2).1,
    (updF_preservedVal_idem o.hazir o.ready m.hazir m.ready h2).2,
    (updF_preservedVal_idem o.gonderildi o.shipped m.gonderildi m.shipped h3).1,
    (updF_preservedVal_idem o.gonderildi o.shipped m.gonderildi m.shipped h3).2,
    (updF_preservedVal_idem o.importantnote o.note m.importantnote m.note h4).1,
    (updF_preservedVal_idem o.importantnote o.note m.importantnote m.note h4).2]

theorem find?_pairwise_key {α : Type} (k : α → Option String) :
    ∀ (l : List α) (x : α) (t : String),
    l.Pairwise (fun a b => k a ≠ k b) → x ∈ l → k x = some t →
    l.find? (fun y => k y == some t) = some x := by
  intro l
  induction l with
  | nil =>
    intro x t _ hx _
    exact absurd hx (List.not_mem_nil x)
  | cons a rest ih =>
    intro x t hp hx hk
    rcases List.mem_cons.mp hx with h1 | h2
    · subst h1
      have hb : (k x == some t) = true := by
        rw [hk]
        exact beq_self_eq_true _
      simp only [List.find?_cons, hb]
    · have hne : k a ≠ some t := by
        intro hka
        exact (List.pairwise_cons.mp hp).1 x h2 (hka.trans hk.symm)
      have hb : (k a == some t) = false := by
        cases hba : (k a == some t) with
        | false => rfl
        | true => exact absurd (eq_of_beq hba) hne
      simp only [List.find?_cons, hb]
      exact ih x t (List.pairwise_cons.mp hp).2 h2 hk

theorem find?_append_left {α : Type} (p : α → Bool) :
    ∀ (l₁ l₂ : List α) (x : α), l₁.find? p = some x →
      (l₁ ++ l₂).find? p = some x := by
  intro l₁
  induction l₁ with
  | nil =>
    intro l₂ x h
    exact absurd h (by simp)
  | cons a rest ih =>
    intro l₂ x h
    cases hp : p a with
    | true =>
      simp only [List.find?_cons, hp] at h
      simp only [List.cons_append, List.find?_cons, hp]
      exact h
    | false =>
      simp only [List.find?_cons, hp] at h
      simp only [List.cons_append, List.find?_cons, hp]
      exact ih l₂ x h

theorem mergeRow_cachedKey (C : List Order) (x : Order) (hco : rowCoherent x = true) :
    cachedKey (mergeRow C x) = fetchedKey x := by
  unfold mergeRow
  cases hk : fetchedKey x with
  | none =>
    simp only [hk]
    rw [rowCoherent_keys hco]
    exact hk
  | some t =>
    simp only [hk]
    cases hl : lookupByCachedKey C t with
    | none =>
      simp only [hl]
      rw [rowCoherent_keys hco]
      exact hk
    | some m =>
      simp only [hl]
      rw [cachedKey_preserve, rowCoherent_keys hco]
      exact hk

theorem lookup_merged (C batch O : List Order)
    (hcoh : ∀ o ∈ batch, rowCoherent o = true)
    {x : Order} {t : String} (hx : x ∈ dedupBatch batch []) (hk : fetchedKey x = some t) :
    lookupByCachedKey ((dedupBatch batch []).map (mergeRow C) ++ O) t =
      some (mergeRow C x) := by
  unfold lookupByCachedKey
  apply find?_append_left
  apply find?_pairwise_key cachedKey
  · rw [List.pairwise_map]
    apply List.Pairwise.imp_of_mem ?_ (dedupBatch_pairwise batch [])
    intro a b ha hb hne
    rw [mergeRow_cachedKey C a (hcoh a ((dedupBatch_sublist batch []).subset ha)),
      mergeRow_cachedKey C b (hcoh b ((dedupBatch_sublist batch []).subset hb))]
    exact hne
  · exact List.mem_map_of_mem (mergeRow C) hx
  · rw [mergeRow_cachedKey C x (hcoh x ((dedupBatch_sublist batch []).subset hx))]
    exact hk

theorem mergeRow_eq_some (L : List Order) (x : Order) (t : String)
    (hk : fetchedKey x = some t) :
    mergeRow L x = (match lookupByCachedKey L t with
      | some m => preserve_editable_fields x m
      | none => x) := by
  unfold mergeRow
  simp only [hk]

theorem mergeRow_merged (C batch O : List Order)
    (hcoh : ∀ o ∈ batch, rowCoherent o = true)
    {x : Order} (hx : x ∈ dedupBatch batch []) :
    mergeRow ((dedupBatch batch []).map (mergeRow C) ++ O) x = mergeRow C x := by
  have hcx : rowCoherent x = true := hcoh x ((dedupBatch_sublist batch []).subset hx)
  cases hk : fetchedKey x with
  | none =>
    unfold mergeRow
    simp only [hk]
  | some t =>
    rw [mergeRow_eq_some ((dedupBatch batch []).map (mergeRow C) ++ O) x t hk,
      lookup_merged C batch O hcoh hx hk]
    show preserve_editable_fields x (mergeRow C x) = mergeRow C x
    cases hl : lookupByCachedKey C t with
    | none =>
      rw [mergeRow_eq_some C x t hk]
      simp only [hl]
      exact preserve_self hcx
    | some m =>
      rw [mergeRow_eq_some C x t hk]
      simp only [hl]
      exact preserve_idem hcx m

theorem filter_eq_nil_of_all {α : Type} (p : α → Bool) :
    ∀ l : List α, (∀ a ∈ l, p a = false) → l.filter p = [] := by
  intro l
  induction l with
  | nil => intro _; rfl
  | cons a rest ih =>
    intro h
    simp only [List.filter_cons, h a (List.mem_cons_self a rest), Bool.false_eq_true, if_false]
    exact ih (fun b hb => h b (List.mem_cons_of_mem a hb))

theorem filter_eq_self_of_all {α : Type} (p : α → Bool) :
    ∀ l : List α, (∀ a ∈ l, p a = true) → l.filter p = l := by
  intro l
  induction l with
  | nil => intro _; rfl
  | cons a rest ih =>
    intro h
    simp only [List.filter_cons, h a (List.mem_cons_self a rest), if_true]
    rw [ih (fun b hb => h b (List.mem_cons_of_mem a hb))]

theorem map_congr_mem {α β : Type} (f g : α → β) :
    ∀ l : List α, (∀ a ∈ l, f a = g a) → l.map f = l.map g := by
  intro l
  induction l with
  | nil => intro _; rfl
  | cons a rest ih =>
    intro h
    simp only [List.map_cons]
    rw [h a (List.mem_cons_self a rest), ih (fun b hb => h b (List.mem_cons_of_mem a hb))]

theorem contains_of_mem {l : List String} {a : String} (h : a ∈ l) :
    l.contains a = true := by
  induction l with
  | nil => exact absurd h (List.not_mem_nil a)
  | cons x rest ih =>
    rcases List.mem_cons.mp h with h1 | h2
    · subst h1
      simp only [List.contains_cons, beq_self_eq_true, Bool.true_or]
    · simp only [List.contains_cons, ih h2, Bool.or_true]

theorem mem_batchKeys_of_fetched {batch : List Order} {x : Order} {t : String}
    (hx : x ∈ batch) (hk : fetchedKey x = some t) : t ∈ batchKeys batch := by
  unfold batchKeys
  exact List.mem_filterMap.mpr ⟨x, hx, hk⟩

theorem orphanPred_merged_false (cache : List Order) {batch : List Order}
    (hcoh : ∀ o ∈ batch, rowCoherent o = true)
    {row : Order} (hrow : row ∈ (dedupBatch batch []).map (mergeRow cache)) :
    orphanPred batch row = false := by
  rcases List.mem_map.mp hrow with ⟨x, hxD, hxeq⟩
  subst hxeq
  have hxb : x ∈ batch := (dedupBatch_sublist batch []).subset hxD
  rcases mem_dedupBatch_key hxD with ⟨t, hk, _⟩
  unfold orphanPred
  rw [mergeRow_cachedKey cache x (hcoh x hxb), hk]
  show (!((batchKeys batch).contains t)) = false
  rw [contains_of_mem (mem_batchKeys_of_fetched hxb hk)]
  rfl

/-- C3 counterexample: the full-replace merge is NOT idempotent in general.
A fetched row whose `Transaction ID` (`Y`) differs from its `transaction`
key (`X`) is indexed under `Y` in the first pass but under `X` in the
orphan pass, so the second application duplicates it: starting from an
empty cache, one application yields one row, two applications yield two. -/
theorem full_replace_not_idempotent :
    update_cache (some [rowSplitKey]) (update_cache (some [rowSplitKey]) []) ≠
      update_cache (some [rowSplitKey]) [] := by
  decide

/-- C3 (amended).  For batches whose rows are key- and flag-coherent (the
two identifier spellings agree and each editable frontend/backend key pair
carries equal values), the full-replace merge is idempotent: applying
`update_cache` with the same fetched batch twice yields the same cache as
applying it once — no duplicate rows and no flag changes on the second
application. -/
theorem full_replace_idempotent_on_coherent (batch cache : List Order)
    (hcoh : ∀ o ∈ batch, rowCoherent o = true) :
    update_cache (some batch) (update_cache (some batch) cache) =
      update_cache (some batch) cache := by
  rw [update_cache_some batch cache, fullReplacePass_eq_map cache batch []]
  rw [update_cache_some]
  rw [fullReplacePass_eq_map]
  rw [map_congr_mem _ _ _
    (fun x hx => mergeRow_merged cache batch (cache.filter (orphanPred batch)) hcoh hx)]
  rw [List.filter_append]
  rw [filter_eq_nil_of_all _ _
    (fun a ha => orphanPred_merged_false cache hcoh ha)]
  rw [filter_eq_self_of_all _ _ (fun a ha => (List.mem_filter.mp ha).2)]
  rw [List.nil_append]

/-- C3 witness: a coherent one-row batch (`rowCohZ`) merged twice into a
cache holding user edits for the same identifier (`rowCachedZ`) equals the
single merge. -/
theorem full_replace_idempotent_on_coherent_witness :
    (∀ o ∈ [rowCohZ], rowCoherent o = true) ∧
    update_cache (some [rowCohZ]) (update_cache (some [rowCohZ]) [rowCachedZ]) =
      update_cache (some [rowCohZ]) [rowCachedZ] :=
  ⟨by decide, full_replace_idempotent_on_coherent [rowCohZ] [rowCachedZ] (by decide)⟩
